import Mathlib

/-!
# Verification of the Debian changelog module

A shallow embedding of `debian_bundle/changelog.py` (the `Version`,
`ChangeBlock` and `Changelog` classes together with the module-level
regular expressions), with theorems checking the natural-language
specification against the code.

Strings are embedded as `List Char`; Python regular expressions are
embedded as deterministic matching functions whose results agree with
Python's backtracking engine on the patterns in question (the reasoning
for each is recorded in its doc comment).
-/

namespace Changelog

/-- Text, embedded as a list of characters. -/
abbrev Str := List Char

/-- Python's `\s` class for `str` patterns (ASCII whitespace). -/
def isPySpace (c : Char) : Bool :=
  c = ' ' || c = '\t' || c = '\n' || c = '\r' || c = '\x0b' || c = '\x0c'

/-- ASCII letter, `[A-Za-z]`. -/
def isAsciiAlpha (c : Char) : Bool :=
  ('A' ≤ c && c ≤ 'Z') || ('a' ≤ c && c ≤ 'z')

/-- ASCII digit, `\d` for Python 2 `str` patterns. -/
def isAsciiDigit (c : Char) : Bool := '0' ≤ c && c ≤ '9'

/-- Python's `\w` class for `str` patterns: `[A-Za-z0-9_]`. -/
def isWordChar (c : Char) : Bool := isAsciiAlpha c || isAsciiDigit c || c = '_'

/-! ## The version grammar

`Version.__setattr__` (changelog.py lines 87-97) matches a full version
string against

    ^(?:(?P<epoch>\d+):)?(?P<upstream_version>[A-Za-z0-9.+:~-]+?)(?:-(?P<debian_version>[A-Za-z0-9.~+]+))?$
-/

/-- Character class of the `upstream_version` group, `[A-Za-z0-9.+:~-]`. -/
def isUpstreamChar (c : Char) : Bool :=
  isAsciiAlpha c || isAsciiDigit c || c = '.' || c = '+' || c = ':' || c = '~' || c = '-'

/-- Character class of the `debian_version` group, `[A-Za-z0-9.~+]`. -/
def isDebianChar (c : Char) : Bool :=
  isAsciiAlpha c || isAsciiDigit c || c = '.' || c = '~' || c = '+'

/-- The lazy `upstream` part followed by the optional `-debian` part of the
version regex, matched to end of input.  Mirrors the backtracking engine:
the lazy `[A-Za-z0-9.+:~-]+?` consumes one character at a time, and after
each character first tries `(?:-(debian))?$` at the current position
(which can only succeed at a `-` whose entire remaining suffix is a
non-empty run of debian-class characters, since that class excludes `-`),
then tries `$`, then consumes the next upstream-class character.
`pre` is the reversed list of upstream characters consumed so far. -/
def scanUp (pre : Str) (rest : Str) : Option (Str × Option Str) :=
  match rest with
  | [] => if pre.isEmpty then none else some (pre.reverse, none)
  | c :: cs =>
      if c = '-' && !pre.isEmpty && !cs.isEmpty && cs.all isDebianChar then
        some (pre.reverse, some cs)
      else if isUpstreamChar c then scanUp (c :: pre) cs
      else none

/-- The optional `(?:(?P<epoch>\d+):)?` prefix.  Greedy `\d+` followed by a
literal `:`: since shortening the digit run leaves a digit (never `:`) as
the next character, the group matches exactly when a maximal non-empty
digit prefix is followed by `:`. -/
def splitEpoch (t : Str) : Option (Str × Str) :=
  match t.dropWhile isAsciiDigit with
  | c :: r =>
      if c = ':' && !(t.takeWhile isAsciiDigit).isEmpty then
        some (t.takeWhile isAsciiDigit, r)
      else none
  | [] => none

/-- The three named groups produced by a successful match of the version
regex (`m.groupdict()` in the source). -/
structure VersionParts where
  epoch : Option Str
  upstream_version : Str
  debian_version : Option Str
deriving DecidableEq, Repr

/-- Full match of the version regex against the whole input, with `$`
taken as end-of-input.  The engine first tries the optional epoch group;
if the remainder then fails to match, it backtracks and retries with the
epoch group skipped (the epoch characters being absorbed into the
upstream group, whose class contains digits and `:`). -/
def matchVersionStrict (t : Str) : Option VersionParts :=
  match splitEpoch t with
  | some (e, r) =>
      match scanUp [] r with
      | some (u, d) => some ⟨some e, u, d⟩
      | none =>
          match scanUp [] t with
          | some (u, d) => some ⟨none, u, d⟩
          | none => none
  | none =>
      match scanUp [] t with
      | some (u, d) => some ⟨none, u, d⟩
      | none => none

/-- The argument position at which the version pattern's `$` can match:
Python's `$` (without `re.MULTILINE`) asserts end-of-string or the
position just before a newline that ends the string. -/
def chopFinalNewline (t : Str) : Str :=
  if t.getLast? = some '\n' then t.dropLast else t

/-- `p.match(version)` for the version pattern.  No character class of
the pattern contains `\n` and the match is anchored at both ends, so a
match of a string ending in a newline is exactly a strict match of the
string with that final newline removed (`$` matching just before it),
and a string not ending in a newline must match strictly. -/
def matchVersionRE (t : Str) : Option VersionParts :=
  matchVersionStrict (chopFinalNewline t)

/-- State of a `changelog.Version` object: the three component attributes
set from `m.groupdict()` plus the stored composite string
`self.__asString` (read back by the `full_version` property). -/
structure Version where
  epoch : Option Str
  upstream_version : Str
  debian_version : Option Str
  asString : Str
deriving DecidableEq, Repr

/-- The `full_version` branch of `Version.__setattr__` (lines 87-97):
match the regex, raise `VersionError(version)` on failure (before any
attribute has been assigned, so the object is unchanged on failure),
otherwise overwrite all three components and `__asString`. -/
def Version.setFullVersion (_v : Version) (s : Str) : Except Str Version :=
  match matchVersionRE s with
  | none => .error s
  | some p =>
      .ok { epoch := p.epoch, upstream_version := p.upstream_version,
            debian_version := p.debian_version, asString := s }

/-- `Version.__init__` (lines 61-65): the external
`debian_support.Version.__init__` base call is not part of this tree and
is treated as not interfering; the observable effect is the
`self.full_version = version` assignment. -/
def Version.init (s : Str) : Except Str Version :=
  Version.setFullVersion ⟨none, [], none, []⟩ s

/-- Python truthiness of an optional string (`None` and `""` are falsy). -/
def truthy : Option Str → Bool
  | none => false
  | some s => !s.isEmpty

/-- The composite string built by the component-setter branch of
`Version.__setattr__` (lines 100-113): epoch is rendered only when truthy
and different from the literal string `"0"`; the debian part only when
truthy. -/
def composeVersion (epoch : Option Str) (upstream : Str) (debian : Option Str) : Str :=
  (if truthy epoch ∧ epoch ≠ some ['0'] then epoch.getD [] ++ [':'] else []) ++
  upstream ++
  (if truthy debian then '-' :: debian.getD [] else [])

/-- Setting `debian_version` (lines 99-115): recompose with the new value
and the current other components, then re-assign `full_version`. -/
def Version.setDebian (v : Version) (val : Option Str) : Except Str Version :=
  v.setFullVersion (composeVersion v.epoch v.upstream_version val)

/-- Setting `upstream_version` (lines 99-115). -/
def Version.setUpstream (v : Version) (val : Str) : Except Str Version :=
  v.setFullVersion (composeVersion v.epoch val v.debian_version)

/-- Setting `epoch` (lines 99-115). -/
def Version.setEpoch (v : Version) (val : Option Str) : Except Str Version :=
  v.setFullVersion (composeVersion val v.upstream_version v.debian_version)

/-! ### Soundness of the version matcher -/

/-- The optional debian suffix as the characters it consumed. -/
def debianPart : Option Str → Str
  | none => []
  | some dv => '-' :: dv

theorem scanUp_sound (rest : Str) : ∀ (pre u : Str) (d : Option Str),
    scanUp pre rest = some (u, d) →
    u ++ debianPart d = pre.reverse ++ rest ∧ ∀ dv, d = some dv → dv ≠ [] := by
  induction rest with
  | nil =>
      intro pre u d h
      unfold scanUp at h
      split at h
      · exact Option.noConfusion h
      · simp only [Option.some.injEq, Prod.mk.injEq] at h
        obtain ⟨rfl, rfl⟩ := h
        refine ⟨by simp [debianPart], ?_⟩
        intro dv hdv
        exact Option.noConfusion hdv
  | cons c cs ih =>
      intro pre u d h
      unfold scanUp at h
      split at h
      · rename_i hc
        simp only [Option.some.injEq, Prod.mk.injEq] at h
        obtain ⟨rfl, rfl⟩ := h
        simp only [Bool.and_eq_true, decide_eq_true_eq, Bool.not_eq_true'] at hc
        obtain ⟨⟨⟨hdash, _⟩, hcs⟩, -⟩ := hc
        subst hdash
        refine ⟨by simp [debianPart], ?_⟩
        intro dv hdv
        obtain rfl := Option.some.inj hdv
        intro hcon
        rw [hcon] at hcs
        exact absurd hcs (by simp)
      · split at h
        · have hrec := ih (c :: pre) u d h
          refine ⟨?_, hrec.2⟩
          rw [hrec.1]
          simp
        · exact Option.noConfusion h

theorem splitEpoch_sound (t e r : Str) (h : splitEpoch t = some (e, r)) :
    t = e ++ ':' :: r ∧ e ≠ [] := by
  unfold splitEpoch at h
  split at h
  · rename_i c r' hd
    split at h
    · rename_i hc
      simp only [Option.some.injEq, Prod.mk.injEq] at h
      obtain ⟨rfl, rfl⟩ := h
      simp only [Bool.and_eq_true, decide_eq_true_eq, Bool.not_eq_true'] at hc
      obtain ⟨rfl, hne⟩ := hc
      constructor
      · conv_lhs => rw [← List.takeWhile_append_dropWhile (p := isAsciiDigit) (l := t)]
        rw [hd]
      · intro hcon
        rw [hcon] at hne
        exact absurd hne (by simp)
    · exact Option.noConfusion h
  · exact Option.noConfusion h

theorem matchVersionStrict_cases (s : Str) (p : VersionParts)
    (h : matchVersionStrict s = some p) :
    (∃ u d, scanUp [] s = some (u, d) ∧ p = ⟨none, u, d⟩) ∨
    (∃ e r u d, splitEpoch s = some (e, r) ∧ scanUp [] r = some (u, d) ∧
      p = ⟨some e, u, d⟩) := by
  unfold matchVersionStrict at h
  split at h
  · rename_i e r hse
    split at h
    · rename_i u d hsu
      right
      exact ⟨e, r, u, d, hse, hsu, (Option.some.inj h).symm⟩
    · split at h
      · rename_i u d hsu2
        left
        exact ⟨u, d, hsu2, (Option.some.inj h).symm⟩
      · exact Option.noConfusion h
  · split at h
    · rename_i u d hsu
      left
      exact ⟨u, d, hsu, (Option.some.inj h).symm⟩
    · exact Option.noConfusion h

theorem debianPart_eq (d : Option Str) (h : ∀ dv, d = some dv → dv ≠ []) :
    (if truthy d then '-' :: d.getD [] else []) = debianPart d := by
  cases d with
  | none => simp [truthy, debianPart]
  | some dv =>
      have hne := h dv rfl
      simp [truthy, debianPart, List.isEmpty_iff, hne]

theorem compose_noEpoch (s u : Str) (d : Option Str) (hsu : scanUp [] s = some (u, d)) :
    composeVersion none u d = s := by
  obtain ⟨hsound, hdne⟩ := scanUp_sound s [] u d hsu
  simp only [List.reverse_nil, List.nil_append] at hsound
  unfold composeVersion
  rw [debianPart_eq d hdne, if_neg (by simp [truthy])]
  simpa using hsound

theorem compose_epoch (s e r u : Str) (d : Option Str)
    (hse : splitEpoch s = some (e, r)) (hsu : scanUp [] r = some (u, d)) :
    (e ≠ ['0'] → composeVersion (some e) u d = s) ∧
    (e = ['0'] → '0' :: ':' :: composeVersion (some e) u d = s) := by
  obtain ⟨hsplit, hene⟩ := splitEpoch_sound s e r hse
  obtain ⟨hsound, hdne⟩ := scanUp_sound r [] u d hsu
  simp only [List.reverse_nil, List.nil_append] at hsound
  constructor
  · intro hne
    unfold composeVersion
    rw [debianPart_eq d hdne,
        if_pos ⟨by simp [truthy, List.isEmpty_iff, hene], by simpa using hne⟩]
    rw [hsplit, List.append_assoc, hsound]
    simp
  · intro he0
    subst he0
    unfold composeVersion
    rw [debianPart_eq d hdne, if_neg (by simp)]
    simp only [List.nil_append]
    rw [hsplit, hsound]
    simp

/-- **C2.** For every string accepted by the version grammar, the
`full_version` property (the stored composite) reads back the original
string verbatim; and recomposing the parsed components through the
component-setter logic reproduces the string as the pattern matched it —
the whole string, except that a single final newline is not part of any
group (Python's `$` matches just before it) — with an epoch equal to
the literal `"0"` additionally dropped (`"0:1.0-1"` recomposes to
`"1.0-1"`).  A strictly matched string never contains a newline (every
character class of the pattern excludes it), so on every input without
a trailing newline the recomposition reproduces the input itself. -/
theorem version_roundtrip (s : Str) (v : Version) (h : Version.init s = .ok v) :
    v.asString = s ∧
    (v.epoch ≠ some ['0'] →
      composeVersion v.epoch v.upstream_version v.debian_version
        = chopFinalNewline s) ∧
    (v.epoch = some ['0'] →
      '0' :: ':' :: composeVersion v.epoch v.upstream_version v.debian_version
        = chopFinalNewline s) ∧
    (s.getLast? ≠ some '\n' → chopFinalNewline s = s) := by
  obtain ⟨p, hm, rfl⟩ : ∃ p, matchVersionRE s = some p ∧
      v = ⟨p.epoch, p.upstream_version, p.debian_version, s⟩ := by
    unfold Version.init Version.setFullVersion at h
    split at h
    · exact Except.noConfusion h
    · rename_i p hp
      exact ⟨p, hp, (Except.ok.inj h).symm⟩
  have hm2 : matchVersionStrict (chopFinalNewline s) = some p := hm
  have hlast : s.getLast? ≠ some '\n' → chopFinalNewline s = s := by
    intro hne
    unfold chopFinalNewline
    rw [if_neg hne]
  rcases matchVersionStrict_cases (chopFinalNewline s) p hm2 with
    ⟨u, d, hsu, rfl⟩ | ⟨e, r, u, d, hse, hsu, rfl⟩
  · refine ⟨rfl, fun _ => compose_noEpoch (chopFinalNewline s) u d hsu,
      fun hcon => ?_, hlast⟩
    exact absurd hcon (by simp)
  · obtain ⟨h1, h2⟩ := compose_epoch (chopFinalNewline s) e r u d hse hsu
    refine ⟨rfl, fun hne => h1 fun hcon => hne ?_,
      fun he0 => h2 (Option.some.inj he0), hlast⟩
    show some e = some ['0']
    rw [hcon]

/-- Witness for `version_roundtrip` at the spec's own example `"0:1.0-1"`
(the stored composite reads back verbatim while recomposition drops the
zero epoch, yielding `"1.0-1"`), and at `"1.0\n"` (accepted because `$`
matches before the final newline; the stored composite keeps the newline,
recomposition does not). -/
theorem version_roundtrip_witness :
    (Version.init ("0:1.0-1".data) =
       .ok ⟨some ['0'], ['1', '.', '0'], some ['1'], "0:1.0-1".data⟩ ∧
     (⟨some ['0'], ['1', '.', '0'], some ['1'], "0:1.0-1".data⟩ : Version).asString
         = "0:1.0-1".data ∧
     composeVersion (some ['0']) ['1', '.', '0'] (some ['1']) = "1.0-1".data) ∧
    (Version.init ("1.0\n".data) =
       .ok ⟨none, ['1', '.', '0'], none, "1.0\n".data⟩ ∧
     composeVersion none ['1', '.', '0'] none = ['1', '.', '0']) := by
  have hinit : Version.init ("0:1.0-1".data) =
      .ok ⟨some ['0'], ['1', '.', '0'], some ['1'], "0:1.0-1".data⟩ := by rfl
  have h := version_roundtrip "0:1.0-1".data _ hinit
  have hinit2 : Version.init ("1.0\n".data) =
      .ok ⟨none, ['1', '.', '0'], none, "1.0\n".data⟩ := by rfl
  have h2 := version_roundtrip "1.0\n".data _ hinit2
  exact ⟨⟨hinit, h.1, by rfl⟩, hinit2,
    (h2.2.1 (by simp)).trans (by rfl)⟩

/-- **C3.** Starting from the version parsed from `"1:1.4.1-1"`, setting
the debian revision to `"2"`, then the upstream version to `"1.4.2"`,
then the epoch to `"2"`, re-derives the composite string immediately at
each step: `"1:1.4.1-2"`, `"1:1.4.2-2"`, `"2:1.4.2-2"`. -/
theorem version_mutation_chain :
    ∃ v1 v2 v3 v4,
      Version.init "1:1.4.1-1".data = .ok v1 ∧
      v1.setDebian (some "2".data) = .ok v2 ∧ v2.asString = "1:1.4.1-2".data ∧
      v2.setUpstream "1.4.2".data = .ok v3 ∧ v3.asString = "1:1.4.2-2".data ∧
      v3.setEpoch (some "2".data) = .ok v4 ∧ v4.asString = "2:1.4.2-2".data := by
  exact ⟨_, _, _, _, rfl, rfl, rfl, rfl, rfl, rfl, rfl⟩

/-- **C4.** A string rejected by the version grammar makes both the
`full_version` assignment and construction fail with the version-format
error carrying the offending string; the error is returned before any
component has been assigned, so the identifier is unchanged on failure.
(The grammar here is the pattern as Python applies it: `$` also matches
just before a string-final newline, so `"1.0\n"` is accepted and not
covered by this theorem, while a string with an interior space, or an
empty string, is rejected.) -/
theorem invalid_version_rejected (v : Version) (s : Str)
    (h : matchVersionRE s = none) :
    Version.setFullVersion v s = .error s ∧ Version.init s = .error s := by
  constructor
  · unfold Version.setFullVersion
    rw [h]
  · unfold Version.init Version.setFullVersion
    rw [h]

/-- Witness for `invalid_version_rejected`: a version string containing a
space, and the empty string (no upstream component), are both rejected. -/
theorem invalid_version_rejected_witness :
    (matchVersionRE "1 .0".data = none ∧
      Version.setFullVersion ⟨none, ['1'], none, ['1']⟩ "1 .0".data
        = .error "1 .0".data ∧
      Version.init "1 .0".data = .error "1 .0".data) ∧
    (matchVersionRE ([] : Str) = none ∧
      Version.init ([] : Str) = .error ([] : Str)) := by
  have h1 : matchVersionRE "1 .0".data = none := by rfl
  have h2 : matchVersionRE ([] : Str) = none := by rfl
  have r1 := invalid_version_rejected ⟨none, ['1'], none, ['1']⟩ "1 .0".data h1
  have r2 := invalid_version_rejected ⟨none, ['1'], none, ['1']⟩ ([] : Str) h2
  exact ⟨⟨h1, r1.1, r1.2⟩, ⟨h2, r2.2⟩⟩

/-! ## ChangeBlock -/

/-- The `blankline` pattern `^\s*$`: the whole line is whitespace. -/
def blanklineB (l : Str) : Bool := l.all isPySpace

/-- State of a `ChangeBlock` object (changelog.py lines 119-214).
`other_pairs` is modelled as an insertion-ordered association list. -/
structure ChangeBlock where
  package : Option Str
  rawVersion : Option Str
  distributions : Option Str
  urgency : Option Str
  urgencyComment : Str
  changes : Option (List Str)
  author : Option Str
  date : Option Str
  trailing : List Str
  otherPairs : List (Str × Str)
  noTrailer : Bool
  trailerSep : Str
deriving DecidableEq, Repr

/-- `ChangeBlock.__init__` (lines 122-137).  Note `urgency or "unknown"`
and `urgency_comment or ''`: a `None` (or empty) urgency argument becomes
the string `"unknown"`; `_no_trailer` starts `False` and
`_trailer_separator` starts as two spaces. -/
def ChangeBlock.init (package : Option Str) (version : Option Str)
    (distributions : Option Str) (urgency : Option Str)
    (urgencyComment : Option Str) (changes : Option (List Str))
    (author : Option Str) (date : Option Str)
    (otherPairs : Option (List (Str × Str))) : ChangeBlock where
  package := package
  rawVersion := version
  distributions := distributions
  urgency := some (match urgency with
    | some u => if u.isEmpty then "unknown".data else u
    | none => "unknown".data)
  urgencyComment := urgencyComment.getD []
  changes := changes
  author := author
  date := date
  trailing := []
  otherPairs := otherPairs.getD []
  noTrailer := false
  trailerSep := [' ', ' ']

/-- A fresh `ChangeBlock()` as created by the parsing engine. -/
def ChangeBlock.empty : ChangeBlock :=
  ChangeBlock.init none none none none none none none none none

/-- `", %s=%s" % (key, value)` for each extra heading pair.  The source
iterates `self.other_pairs.items()`, a CPython 2 dict in hash-slot
order; this renders the model's list order, which agrees with the
program exactly when there is at most one pair, so round-trip theorems
carry that bound as a hypothesis. -/
def renderPairs : List (Str × Str) → Str
  | [] => []
  | (k, v) :: rest => (',' :: ' ' :: (k ++ '=' :: v)) ++ renderPairs rest

/-- Each line followed by a newline (used for change lines and trailing
lines in `ChangeBlock.__str__`). -/
def renderLines : List Str → Str
  | [] => []
  | l :: rest => l ++ '\n' :: renderLines rest

/-- The heading text built by `ChangeBlock.__str__` (lines 184-200):
`package (version) distributions; urgency=urgency<comment>, k=v, ...`. -/
def renderHeading (pkg ver dist urg ucom : Str) (pairs : List (Str × Str)) : Str :=
  pkg ++ ' ' :: '(' :: (ver ++ ')' :: ' ' :: (dist ++ ';' :: ' ' ::
    ("urgency=".data ++ urg ++ ucom ++ renderPairs pairs)))

/-- `ChangeBlock.__str__` (lines 184-214): raises `ChangelogCreateError`
when package, version, distribution, urgency or changes are unset, and,
unless `_no_trailer` is set, when author or date are unset. -/
def ChangeBlock.render (b : ChangeBlock) : Except Str Str :=
  match b.package with
  | none => .error "Package not specified".data
  | some pkg =>
  match b.rawVersion with
  | none => .error "Version not specified".data
  | some ver =>
  match b.distributions with
  | none => .error "Distribution not specified".data
  | some dist =>
  match b.urgency with
  | none => .error "Urgency not specified".data
  | some urg =>
  match b.changes with
  | none => .error "Changes not specified".data
  | some chs =>
    let body := renderHeading pkg ver dist urg b.urgencyComment b.otherPairs
        ++ '\n' :: renderLines chs
    if b.noTrailer then
      .ok (body ++ renderLines b.trailing)
    else
      match b.author with
      | none => .error "Author not specified".data
      | some auth =>
      match b.date with
      | none => .error "Date not specified".data
      | some date =>
        .ok (body ++ (" -- ".data ++ auth ++ b.trailerSep ++ date ++ ['\n'])
             ++ renderLines b.trailing)

/-- **C8 (amended).** Serialization fails with a creation error exactly
when package, version, distributions, urgency or change-notes are unset,
or the no-trailer flag is clear and author or date is unset.  (Note that
a block built by the initializer always has a non-`None` urgency, since
the initializer replaces a missing urgency by `"unknown"`.) -/
theorem render_error_iff (b : ChangeBlock) :
    (∃ m, b.render = .error m) ↔
      (b.package = none ∨ b.rawVersion = none ∨ b.distributions = none ∨
       b.urgency = none ∨ b.changes = none ∨
       (b.noTrailer = false ∧ (b.author = none ∨ b.date = none))) := by
  obtain ⟨pkg, ver, dist, urg, ucom, chs, auth, date, tr, ops, nt, sep⟩ := b
  rcases pkg with _ | pkg <;>
  rcases ver with _ | ver <;>
  rcases dist with _ | dist <;>
  rcases urg with _ | urg <;>
  rcases chs with _ | chs <;>
  rcases nt with _ | _ <;>
  rcases auth with _ | auth <;>
  rcases date with _ | date <;>
  simp [ChangeBlock.render]

/-- **C8 counterexample.** A block whose urgency was never set (built by
the initializer with no urgency argument) serializes successfully — the
initializer has already defaulted urgency to `"unknown"`, so the claimed
creation error does not occur. -/
theorem urgency_unset_renders :
    (ChangeBlock.init (some "pkg".data) (some "1.0-1".data)
        (some "unstable".data) none none (some ["  * x".data])
        (some "A <a@b>".data) (some "Mon".data) none).render =
      .ok "pkg (1.0-1) unstable; urgency=unknown\n  * x\n -- A <a@b>  Mon\n".data := by
  rfl

/-- `ChangeBlock.add_change`'s scan (lines 170-179): walk the reversed
notes list, and insert the new change just before the first non-blank
entry (`added = True`); return `none` when every entry is blank. -/
def insertBeforeFirstNonBlank (change : Str) : List Str → Option (List Str)
  | [] => none
  | l :: rest =>
      if blanklineB l then
        match insertBeforeFirstNonBlank change rest with
        | some r => some (l :: r)
        | none => none
      else some (change :: l :: rest)

/-- `ChangeBlock.add_change` (lines 164-182). -/
def ChangeBlock.add_change (b : ChangeBlock) (change : Str) : ChangeBlock :=
  match b.changes with
  | none => { b with changes := some [change] }
  | some cs =>
      match insertBeforeFirstNonBlank change cs.reverse with
      | some r => { b with changes := some r.reverse }
      | none => { b with changes := some (cs.reverse.reverse ++ [change]) }

theorem insertBeforeFirstNonBlank_all_blank (c : Str) (r : List Str)
    (h : ∀ l ∈ r, blanklineB l) : insertBeforeFirstNonBlank c r = none := by
  induction r with
  | nil => rfl
  | cons l rest ih =>
      unfold insertBeforeFirstNonBlank
      rw [if_pos (h l (by simp)), ih (fun x hx => h x (by simp [hx]))]

theorem insertBeforeFirstNonBlank_skip (c x : Str) (t : List Str) (bl : List Str)
    (hb : ∀ l ∈ bl, blanklineB l) (hx : ¬ blanklineB x) :
    insertBeforeFirstNonBlank c (bl ++ x :: t) = some (bl ++ c :: x :: t) := by
  induction bl with
  | nil =>
      simp only [List.nil_append]
      unfold insertBeforeFirstNonBlank
      rw [if_neg hx]
  | cons l rest ih =>
      simp only [List.cons_append]
      unfold insertBeforeFirstNonBlank
      rw [if_pos (hb l (by simp)), ih (fun y hy => hb y (by simp [hy]))]

/-- **C9.** Programmatic note insertion: with no notes the result is the
one-element list; with all-blank notes the new line is appended at the
very end; otherwise the new line lands immediately after the last
non-blank line, i.e. just before the trailing blank run. -/
theorem add_change_spec (b : ChangeBlock) (c : Str) :
    (b.changes = none → (b.add_change c).changes = some [c]) ∧
    (∀ cs, b.changes = some cs → (∀ l ∈ cs, blanklineB l) →
      (b.add_change c).changes = some (cs ++ [c])) ∧
    (∀ xs x ys, b.changes = some (xs ++ x :: ys) → ¬ blanklineB x →
      (∀ y ∈ ys, blanklineB y) →
      (b.add_change c).changes = some (xs ++ x :: c :: ys)) := by
  refine ⟨?_, ?_, ?_⟩
  · intro h
    simp only [ChangeBlock.add_change, h]
  · intro cs h hall
    simp only [ChangeBlock.add_change, h]
    rw [insertBeforeFirstNonBlank_all_blank c cs.reverse
      (fun l hl => hall l (List.mem_reverse.mp hl))]
    simp
  · intro xs x ys h hx hys
    simp only [ChangeBlock.add_change, h]
    have hrev : (xs ++ x :: ys).reverse = ys.reverse ++ x :: xs.reverse := by
      simp
    rw [hrev, insertBeforeFirstNonBlank_skip c x xs.reverse ys.reverse
      (fun l hl => hys l (List.mem_reverse.mp hl)) hx]
    simp

/-- Witness for `add_change_spec`: adding `"  * b"` to notes ending in a
blank line inserts it before the trailing blank, and adding to a block
with no notes yields the singleton list. -/
theorem add_change_spec_witness :
    ((ChangeBlock.init none none none none none
        (some ["  * a".data, [] ]) none none none).add_change
        "  * b".data).changes = some ["  * a".data, "  * b".data, [] ] ∧
    ((ChangeBlock.init none none none none none none none none
        none).add_change "  * b".data).changes = some ["  * b".data] := by
  constructor
  · exact (add_change_spec (ChangeBlock.init none none none none none
        (some ["  * a".data, [] ]) none none none) "  * b".data).2.2
      [] "  * a".data [[]] rfl (by decide) (by decide)
  · exact (add_change_spec (ChangeBlock.init none none none none none none
        none none none) "  * b".data).1 rfl

/-! ## Line matchers

Embeddings of the module-level regular expressions (changelog.py lines
216-249).  Each is a deterministic function agreeing with Python's
backtracking engine on the pattern; parser lines never contain `'\n'`
(they come from splitting on newlines), and the matchers treat `.` as
`[^\n]` exactly as Python does. -/

/-- ASCII lower-casing, the effect of `re.IGNORECASE` on these patterns. -/
def lowerChar (c : Char) : Char :=
  if 'A' ≤ c && c ≤ 'Z' then Char.ofNat (c.toNat + 32) else c

/-- Case-insensitive literal prefix (`pat` given in lowercase). -/
def ciPrefix (pat l : Str) : Bool := pat.isPrefixOf (l.map lowerChar)

/-- Python `str.strip()`. -/
def strip (s : Str) : Str :=
  ((s.dropWhile isPySpace).reverse.dropWhile isPySpace).reverse

/-- Python `str.split(sep)` for a single-character separator. -/
def splitChar (sep : Char) : Str → List Str
  | [] => [[]]
  | c :: cs =>
      if c = sep then [] :: splitChar sep cs
      else
        match splitChar sep cs with
        | h :: t => (c :: h) :: t
        | [] => [[c]]

/-- Python `str.split(sep, 1)`: text before the first separator, and the
remainder after it when the separator occurs. -/
def splitFirst (sep : Char) : Str → Str × Option Str
  | [] => ([], none)
  | c :: cs =>
      if c = sep then ([], some cs)
      else
        let (a, b) := splitFirst sep cs
        (c :: a, b)

/-- Search for `pat` with no interposed newline (the `.*pat` idiom: `.`
cannot cross `\n`, so an occurrence past a newline does not count). -/
def hasSubNoNl (pat : Str) : Str → Bool
  | [] => pat.isEmpty
  | c :: cs =>
      if pat.isPrefixOf (c :: cs) then true
      else if c = '\n' then false
      else hasSubNoNl pat cs

/-- The name class `[-+0-9a-z.]` of `topline` under `re.IGNORECASE`. -/
def isToplineNameChar (c : Char) : Bool :=
  isAsciiAlpha c || isAsciiDigit c || c = '-' || c = '+' || c = '.'

/-- The version group class `[^\(\) \t]` of `topline`. -/
def isVersionGroupChar (c : Char) : Bool :=
  c ≠ '(' && c ≠ ')' && c ≠ ' ' && c ≠ '\t'

/-- One `\s+[-+0-9a-z.]+` iteration of `topline`'s distribution group:
maximal whitespace run (shrinking it leaves whitespace where a name
character is required) then maximal name run.  Returns the consumed text
and the remainder. -/
def distsIter (l : Str) : Option (Str × Str) :=
  let ws := l.takeWhile isPySpace
  let r1 := l.dropWhile isPySpace
  let nm := r1.takeWhile isToplineNameChar
  let r2 := r1.dropWhile isToplineNameChar
  if ws.isEmpty || nm.isEmpty then none else some (ws ++ nm, r2)

/-- `((\s+[-+0-9a-z.]+)+)\;`: repeat `distsIter`; a `;` is only accepted
directly after a name run (`;` is neither whitespace nor a name
character, so no backtracking alternative exists).  Returns the
distribution group text and the remainder after the `;`. -/
def distsScanAux : Nat → Str → Option (Str × Str)
  | 0, _ => none
  | fuel + 1, l =>
      match distsIter l with
      | none => none
      | some (c, rest) =>
          match rest with
          | ';' :: r => some (c, r)
          | _ =>
              match distsScanAux fuel rest with
              | some (c2, r) => some (c ++ c2, r)
              | none => none

def distsScan (l : Str) : Option (Str × Str) := distsScanAux l.length l

/-- `topline` (lines 216-219):
`^(\w[-+0-9a-z.]*) \(([^\(\) \t]+)\)((\s+[-+0-9a-z.]+)+)\;` with
`re.IGNORECASE`.  Greedy runs followed by characters outside their class
are deterministic.  Returns groups 1 (package), 2 (raw version) and
3 (distributions, whitespace-prefixed). -/
def toplineMatch (l : Str) : Option (Str × Str × Str) :=
  match l with
  | [] => none
  | c0 :: rest =>
      if !isWordChar c0 then none
      else
        let nm := rest.takeWhile isToplineNameChar
        match rest.dropWhile isToplineNameChar with
        | ' ' :: '(' :: r2 =>
            let ver := r2.takeWhile isVersionGroupChar
            (match r2.dropWhile isVersionGroupChar with
             | ')' :: r3 =>
                 if ver.isEmpty then none
                 else
                   match distsScan r3 with
                   | some (dists, _) => some (c0 :: nm, ver, dists)
                   | none => none
             | _ => none)
        | _ => none

/-- The `change` pattern `^\s\s+.*$`: at least two leading whitespace
characters. -/
def changeB (l : Str) : Bool :=
  match l with
  | a :: b :: _ => isPySpace a && isPySpace b
  | _ => false

/-- All decompositions `l = pre ++ pat ++ post`, leftmost first. -/
def splitsOn (pat l : Str) : List (Str × Str) :=
  (List.range (l.length + 1)).filterMap (fun i =>
    if pat.isPrefixOf (l.drop i) then some (l.take i, l.drop (i + pat.length))
    else none)

/-- `\d{1,2}` before a non-digit literal: the maximal digit run must have
length 1 or 2 (a longer run leaves a digit where the literal is
required under every backtracking choice). -/
def run12 (l : Str) : Option Str :=
  let d := l.takeWhile isAsciiDigit
  if d.length = 1 || d.length = 2 then some (l.drop d.length) else none

/-- `\d{1,2}:\d\d:\d\d` of `endline`. -/
def hhmmss (l : Str) : Option Str :=
  match run12 l with
  | some (':' :: a :: b :: ':' :: c :: d :: rest) =>
      if isAsciiDigit a && isAsciiDigit b && isAsciiDigit c && isAsciiDigit d then
        some rest
      else none
  | _ => none

/-- The trailing `(\s+\([^\\\(\)]\))?\s*$` of the trailer date: try the
parenthesised group after a maximal whitespace run, otherwise the whole
remainder must be whitespace. -/
def optParenThenWs (l : Str) : Bool :=
  match l.dropWhile isPySpace with
  | '(' :: c :: ')' :: rest =>
      if !(l.takeWhile isPySpace).isEmpty && c ≠ '\\' && c ≠ '(' && c ≠ ')' then
        rest.all isPySpace
      else l.all isPySpace
  | _ => l.all isPySpace

/-- `\d{1,2}\s+\w+\s+\d{4}\s+\d{1,2}:\d\d:\d\d\s+[-+]\d{4}(\s+\([^\\\(\)]\))?\s*$`,
the date part of `endline` after the optional weekday.  All runs are over
pairwise disjoint classes, so maximal munch agrees with backtracking. -/
def dateTail (l : Str) : Bool :=
  match run12 l with
  | none => false
  | some r1 =>
  let w1 := r1.takeWhile isPySpace
  let r2 := r1.dropWhile isPySpace
  if w1.isEmpty then false else
  let m := r2.takeWhile isWordChar
  let r3 := r2.dropWhile isWordChar
  if m.isEmpty then false else
  let w2 := r3.takeWhile isPySpace
  let r4 := r3.dropWhile isPySpace
  if w2.isEmpty then false else
  let y := r4.takeWhile isAsciiDigit
  if y.length ≠ 4 then false else
  let r5 := r4.dropWhile isAsciiDigit
  let w3 := r5.takeWhile isPySpace
  let r6 := r5.dropWhile isPySpace
  if w3.isEmpty then false else
  match hhmmss r6 with
  | none => false
  | some r7 =>
  let w4 := r7.takeWhile isPySpace
  let r8 := r7.dropWhile isPySpace
  if w4.isEmpty then false else
  match r8 with
  | c :: r9 =>
      if c ≠ '-' && c ≠ '+' then false
      else
        let z := r9.takeWhile isAsciiDigit
        if z.length ≠ 4 then false else optParenThenWs (r9.drop 4)
  | [] => false

/-- The full date group `((\w+\,\s*)?<dateTail>)`: the optional weekday
prefix is tried first, then skipped. -/
def dateMatch (l : Str) : Bool :=
  (match l.dropWhile isWordChar with
   | ',' :: r =>
       !(l.takeWhile isWordChar).isEmpty && dateTail (r.dropWhile isPySpace)
   | _ => false) ||
  dateTail l

/-- `endline` (lines 222-223):
`^ -- (.*) <(.*)>(  ?)((\w+\,\s*)?...\s*)$`.  The greedy `(.*)` groups try
split points rightmost-first; group 3 is two spaces when possible, else
one; group 4 is the whole remainder (its trailing `\s*` is inside the
group).  Returns (name, email, separator, date). -/
def endlineMatch (l : Str) : Option (Str × Str × Str × Str) :=
  if (" -- ".data).isPrefixOf l then
    let r := l.drop 4
    ((splitsOn (" <".data) r).reverse).findSome? (fun (g1, rest1) =>
      ((splitsOn ([ '>' ]) rest1).reverse).findSome? (fun (g2, rest2) =>
        if ([' ', ' ']).isPrefixOf rest2 && dateMatch (rest2.drop 2) then
          some (g1, g2, [' ', ' '], rest2.drop 2)
        else if ([' ']).isPrefixOf rest2 && dateMatch (rest2.drop 1) then
          some (g1, g2, [' '], rest2.drop 1)
        else none))
  else none

/-- `endline_nodetails` (lines 224-226): ` --` followed either by
whitespace only, or by a full author/email/date tail (whose acceptance
set coincides with `endline`, the trailing `\s*` being outside the group
here but adjacent to it there).  The engine never reads this pattern's
groups. -/
def endlineNodetails (l : Str) : Bool :=
  ((" --".data).isPrefixOf l && (l.drop 3).all isPySpace) ||
  (endlineMatch l).isSome

/-- The key class `[-0-9a-z]` of `keyvalue`/`value_re` under
`re.IGNORECASE`. -/
def isKeyChar (c : Char) : Bool := isAsciiAlpha c || isAsciiDigit c || c = '-'

/-- `keyvalue` (line 227): `^([-0-9a-z]+)=\s*(.*\S)$` with
`re.IGNORECASE`: key run, `=`, then the remainder with leading
whitespace stripped, which must be non-empty and end in non-whitespace. -/
def keyvalueMatch (l : Str) : Option (Str × Str) :=
  let k := l.takeWhile isKeyChar
  match l.dropWhile isKeyChar with
  | '=' :: r =>
      if k.isEmpty then none
      else
        let v := r.dropWhile isPySpace
        match v.getLast? with
        | some c => if isPySpace c then none else some (k, v)
        | none => none
  | _ => none

/-- `value_re` (line 228): `^([-0-9a-z]+)((\s+.*)?)$` with
`re.IGNORECASE`: key run, then either end of line or a
whitespace-initial remainder (group 2). -/
def valueReMatch (l : Str) : Option (Str × Str) :=
  let k := l.takeWhile isKeyChar
  let r := l.dropWhile isKeyChar
  if k.isEmpty then none
  else
    match r with
    | [] => some (k, [])
    | c :: _ => if isPySpace c then some (k, r) else none

/-- `emacs_variables` (line 230): `^(;;\s*)?Local variables:` with
`re.IGNORECASE`.  With a `;;` prefix the literal must follow the maximal
whitespace run; without it the literal must start the line. -/
def emacsB (l : Str) : Bool :=
  match l with
  | ';' :: ';' :: r => ciPrefix "local variables:".data (r.dropWhile isPySpace)
  | _ => ciPrefix "local variables:".data l

/-- `vim_variables` (line 231): `^vim:` with `re.IGNORECASE`. -/
def vimB (l : Str) : Bool := ciPrefix "vim:".data l

/-- `cvs_keyword` (line 232): `^\$\w+:.*\$`. -/
def cvsB (l : Str) : Bool :=
  match l with
  | '$' :: r =>
      (match r.dropWhile isWordChar with
       | ':' :: rest => !(r.takeWhile isWordChar).isEmpty && hasSubNoNl ['$'] rest
       | _ => false)
  | _ => false

/-- `comments` (line 233): `^\# `. -/
def commentsB (l : Str) : Bool := ("# ".data).isPrefixOf l

/-- `more_comments` (line 234): `^/\*.*\*/`. -/
def moreCommentsB (l : Str) : Bool :=
  match l with
  | '/' :: '*' :: r => hasSubNoNl "*/".data r
  | _ => false

/-! ### Old-format heading patterns (lines 236-249)

Only their Boolean outcome is consulted by the engine. -/

def bracketOpen (c : Char) : Bool := c = '<' || c = '('

def bracketClose (c : Char) : Bool := c = ')' || c = '>'

def noNl (l : Str) : Bool := !l.contains '\n'

/-- A closing bracket reachable through `(.*)`: before any newline. -/
def scanForClose : Str → Bool
  | [] => false
  | c :: cs =>
      if bracketClose c then true
      else if c = '\n' then false
      else scanForClose cs

/-- Split off the maximal whitespace suffix. -/
def splitTrailWs (mid : Str) : Str × Str :=
  let revws := mid.reverse.takeWhile isPySpace
  (mid.take (mid.length - revws.length), revws.reverse)

/-- The common tail `\s+(.*)\s+(<|\()(.*)(\)|>)` of `old_format_re1` and
`old_format_re2` (trailing text after the closing bracket is allowed,
the pattern not being end-anchored).  The opening bracket sits at some
position `b ≥ 2`; before it, a leading whitespace run, a newline-free
`(.*)` group, and a final whitespace run (taking both runs maximal
minimises the `(.*)` group, which is optimal since widening it can only
add newlines). -/
def oldTail (r : Str) : Bool :=
  let k0 := (r.takeWhile isPySpace).length
  decide (1 ≤ k0) &&
  ((List.range r.length).any (fun b =>
    decide (2 ≤ b) &&
    (match r.drop b with
     | c :: rest =>
         bracketOpen c &&
         (let mid := (r.take b).drop k0
          if mid.isEmpty then true
          else
            let (g2, w2) := splitTrailWs mid
            !w2.isEmpty && noNl g2) &&
         scanForClose rest
     | [] => false)))

/-- `\w+\s+`: maximal word run (non-empty) then maximal whitespace run
(non-empty); the classes are disjoint so no backtracking arises. -/
def word_ws (l : Str) : Option Str :=
  let w := l.takeWhile isWordChar
  let r := l.dropWhile isWordChar
  if w.isEmpty then none
  else
    let s := r.takeWhile isPySpace
    if s.isEmpty then none else some (r.dropWhile isPySpace)

/-- `\d{1,2}:\d{1,2}:\d{1,2}` of `old_format_re1`. -/
def hms12 (l : Str) : Option Str :=
  match run12 l with
  | some (':' :: r) =>
      (match run12 r with
       | some (':' :: r2) => run12 r2
       | _ => none)
  | _ => none

/-- `\s+[\w\s]*\d{4}` then the common tail: the year's four digits can sit
after any `[\w\s]` mix starting with whitespace. -/
def re1Year (rest : Str) : Bool :=
  match rest with
  | c :: _ =>
      isPySpace c &&
      ((List.range (rest.length + 1)).any (fun j =>
        (rest.take j).all (fun x => isWordChar x || isPySpace x) &&
        ((rest.drop j).take 4).all isAsciiDigit &&
        decide (((rest.drop j).take 4).length = 4) &&
        oldTail (rest.drop (j + 4))))
  | [] => false

/-- `old_format_re1` (lines 236-237):
`^(\w+\s+\w+\s+\d{1,2} \d{1,2}:\d{1,2}:\d{1,2}\s+[\w\s]*\d{4})\s+(.*)\s+(<|\()(.*)(\)|>)`. -/
def oldFormat1 (l : Str) : Bool :=
  match word_ws l with
  | none => false
  | some r1 =>
  match word_ws r1 with
  | none => false
  | some r2 =>
  match run12 r2 with
  | none => false
  | some r3 =>
  match r3 with
  | ' ' :: r4 =>
      (match hms12 r4 with
       | some r5 => re1Year r5
       | none => false)
  | _ => false

/-- `,?\s*\d{4}` then the common tail, for `old_format_re2`. -/
def re2AfterDay (rest : Str) : Bool :=
  let r := match rest with
           | ',' :: r0 => r0
           | _ => rest
  let r2 := r.dropWhile isPySpace
  (r2.take 4).all isAsciiDigit && decide ((r2.take 4).length = 4) &&
    oldTail (r2.drop 4)

/-- `old_format_re2` (lines 238-239):
`^(\w+\s+\w+\s+\d{1,2},?\s*\d{4})\s+(.*)\s+(<|\()(.*)(\)|>)`.  The day's
`\d{1,2}` genuinely backtracks (two digits, then one) since `\s*` may be
empty before the year. -/
def oldFormat2 (l : Str) : Bool :=
  match word_ws l with
  | none => false
  | some r1 =>
  match word_ws r1 with
  | none => false
  | some r2 =>
      let d := r2.takeWhile isAsciiDigit
      !d.isEmpty &&
        ((decide (2 ≤ d.length) && re2AfterDay (r2.drop 2)) ||
         re2AfterDay (r2.drop 1))

/-- `old_format_re3` (lines 240-241):
`^(\w[-+0-9a-z.]*) \(([^\(\) \t]+)\)\;?` with `re.IGNORECASE` (the
optional `;` and trailing text impose no constraint). -/
def oldFormat3 (l : Str) : Bool :=
  match l with
  | c0 :: rest =>
      isWordChar c0 &&
      (match rest.dropWhile isToplineNameChar with
       | ' ' :: '(' :: r2 =>
           (match r2.dropWhile isVersionGroupChar with
            | ')' :: _ => !(r2.takeWhile isVersionGroupChar).isEmpty
            | _ => false)
       | _ => false)
  | [] => false

/-- The class `[\w.+-]` of `old_format_re4` and `old_format_re6`. -/
def isRe4Class (c : Char) : Bool :=
  isWordChar c || c = '.' || c = '+' || c = '-'

/-- `(\S+) Debian (\S+)` (case-insensitive literal): a maximal non-space
run, a space, `debian`, a space, then at least one non-space character. -/
def re4Tail (b : Str) : Bool :=
  let s1 := b.takeWhile (fun c => !isPySpace c)
  !s1.isEmpty &&
  (match b.dropWhile (fun c => !isPySpace c) with
   | ' ' :: r2 =>
       ciPrefix "debian ".data r2 &&
         !((r2.drop 7).takeWhile (fun c => !isPySpace c)).isEmpty
   | _ => false)

/-- `old_format_re4` (lines 242-243): `^([\w.+-]+)(-| )(\S+) Debian (\S+)`
with `re.IGNORECASE`.  The separator position ranges over the class run
(`-` belongs to the class). -/
def oldFormat4 (l : Str) : Bool :=
  let n := (l.takeWhile isRe4Class).length
  decide (1 ≤ n) &&
  ((List.range (n + 1)).any (fun i =>
    decide (1 ≤ i) &&
    (match l.drop i with
     | c :: b => (c = '-' || c = ' ') && re4Tail b
     | [] => false)))

/-- A `:` reachable through `(.*)`: before any newline. -/
def scanColon : Str → Bool
  | [] => false
  | c :: cs => if c = ':' then true else if c = '\n' then false else scanColon cs

/-- The `(.*) to (.*):` tail of `old_format_re5`: some (case-insensitive)
` to ` with a newline-free prefix, followed by a `:` with a newline-free
prefix. -/
def re5Tail : Str → Bool
  | [] => false
  | c :: cs =>
      (ciPrefix " to ".data (c :: cs) && scanColon ((c :: cs).drop 4)) ||
      (if c = '\n' then false else re5Tail cs)

/-- `old_format_re5` (lines 244-245): `^Changes from version (.*) to (.*):`
with `re.IGNORECASE`. -/
def oldFormat5 (l : Str) : Bool :=
  ciPrefix "changes from version ".data l && re5Tail (l.drop 21)

/-- `old_format_re6` (lines 246-247): `^Changes for [\w.+-]+-[\w.+-]+:?\s*$`
with `re.IGNORECASE`: after the literal, a class run with an interior `-`,
then an optional `:` and trailing whitespace to end of line. -/
def oldFormat6 (l : Str) : Bool :=
  ciPrefix "changes for ".data l &&
  (let rest := l.drop 12
   let r := rest.takeWhile isRe4Class
   ((r.drop 1).take (r.length - 2)).contains '-' &&
   (match rest.dropWhile isRe4Class with
    | ':' :: t => t.all isPySpace
    | t => t.all isPySpace))

/-- `old_format_re7` (line 248): `^Old Changelog:\s*$` with
`re.IGNORECASE`. -/
def oldFormat7 (l : Str) : Bool :=
  ciPrefix "old changelog:".data l && (l.drop 14).all isPySpace

/-- The `\w[\w.+~-]*:?\s*$` core of `old_format_re8`. -/
def re8Core (t : Str) : Bool :=
  match t with
  | c :: rest =>
      isWordChar c &&
      (match rest.dropWhile (fun x =>
          isWordChar x || x = '.' || x = '+' || x = '~' || x = '-') with
       | ':' :: t2 => t2.all isPySpace
       | t2 => t2.all isPySpace)
  | [] => false

/-- `old_format_re8` (line 249): `^(?:\d+:)?\w[\w.+~-]*:?\s*$` — the
optional epoch-like prefix is tried first, with fallback. -/
def oldFormat8 (l : Str) : Bool :=
  match splitEpoch l with
  | some (_, r) => re8Core r || re8Core l
  | none => re8Core l

/-- Disjunction of the eight legacy heading shapes (lines 370-377). -/
def oldFormatB (l : Str) : Bool :=
  oldFormat1 l || oldFormat2 l || oldFormat3 l || oldFormat4 l ||
  oldFormat5 l || oldFormat6 l || oldFormat7 l || oldFormat8 l

/-! ## The parsing engine (`Changelog.parse_changelog`, lines 279-448) -/

/-- The five scanner states (lines 281-285). -/
inductive PState
  | firstHeading
  | nextHeadingOrEof
  | startOfChangeData
  | moreChangesOrTrailer
  | slurpToEnd
deriving DecidableEq, Repr

/-- The state names used in error messages. -/
def stateName : PState → Str
  | .firstHeading => "first heading".data
  | .nextHeadingOrEof => "next heading of EOF".data
  | .startOfChangeData => "start of change data".data
  | .moreChangesOrTrailer => "more change data or trailer".data
  | .slurpToEnd => "slurp to end".data

/-- The engine's mutable state: the document being built (`self._blocks`,
`self.initial_blank_lines`), the in-progress block, the pending change
lines, and the scanner state with its remembered predecessor. -/
structure ParseState where
  blocks : List ChangeBlock
  initialBlankLines : List Str
  currentBlock : ChangeBlock
  changes : List Str
  state : PState
  oldState : Option PState
deriving DecidableEq, Repr

def initParseState : ParseState :=
  ⟨[], [], ChangeBlock.empty, [], .firstHeading, none⟩

/-- Outcome of processing one line: continue, stop (the `return` on
reaching `max_blocks`), or raise `ChangelogParseError` (strict mode),
carrying the state as mutated so far. -/
inductive StepResult
  | cont (s : ParseState)
  | stop (s : ParseState)
  | err (msg : Str) (s : ParseState)
deriving DecidableEq, Repr

/-- Parser configuration (the keyword arguments of `parse_changelog`). -/
structure Config where
  maxBlocks : Option Nat
  allowEmptyAuthor : Bool
  strict : Bool
deriving DecidableEq, Repr

/-- `self._blocks[-1].add_trailing_line(line)`. -/
def addTrailing (line : Str) (b : ChangeBlock) : ChangeBlock :=
  { b with trailing := b.trailing ++ [line] }

/-- Update the last element (`self._blocks[-1]`); the engine only reaches
this with a non-empty list. -/
def modifyLast (f : ChangeBlock → ChangeBlock) : List ChangeBlock → List ChangeBlock
  | [] => []
  | [b] => [f b]
  | b :: rest => b :: modifyLast f rest

/-- Python-dict assignment, modelled on an insertion-ordered association
list: overwrite in place, else append.  The membership and lookup
behaviour is that of the source's dict; the *iteration* order of a
CPython 2 dict is hash-slot order, which coincides with this list's
order only when the dict holds at most one entry, so theorems about
rendering `other_pairs` are stated under that bound. -/
def dictInsert (k v : Str) : List (Str × Str) → List (Str × Str)
  | [] => [(k, v)]
  | (k2, v2) :: rest =>
      if k2 = k then (k2, v) :: rest else (k2, v2) :: dictInsert k v rest

/-- Accumulator of the heading's `key=value` loop (lines 317-343). -/
structure KvState where
  allKeys : List Str
  otherPairs : List (Str × Str)
  urgency : Option Str
  urgencyComment : Option Str
deriving DecidableEq, Repr

/-- The `for pair in pairs.split(',')` loop (lines 319-343): strip each
pair, match `keyvalue` (recoverable error and `continue` on failure),
flag duplicate keys (recoverable error, then fall through), treat
`urgency` specially via `value_re` (recoverable error leaves urgency
untouched), and collect the other pairs in insertion order. -/
def processPairs (strict : Bool) : List Str → KvState → Except Str KvState
  | [], st => .ok st
  | pr :: rest, st =>
      let p := strip pr
      match keyvalueMatch p with
      | none =>
          if strict then
            .error ("Invalid key-value pair after \x27;\x27: ".data ++ p)
          else processPairs strict rest st
      | some (key, value) =>
          let kl := key.map lowerChar
          if st.allKeys.contains kl && strict then
            .error ("Repeated key-value: ".data ++ kl)
          else
            let st1 := { st with allKeys :=
              if st.allKeys.contains kl then st.allKeys else st.allKeys ++ [kl] }
            if kl = "urgency".data then
              match valueReMatch value with
              | none =>
                  if strict then
                    .error ("Badly formatted urgency value: ".data ++ value)
                  else processPairs strict rest st1
              | some (u, com) =>
                  processPairs strict rest
                    { st1 with urgency := some u, urgencyComment := some com }
            else
              processPairs strict rest
                { st1 with otherPairs := dictInsert key value st1.otherPairs }

/-- The data extracted from a heading line. -/
structure HeadingData where
  package : Str
  rawVersion : Str
  distributions : Str
  urgency : Option Str
  urgencyComment : Option Str
  otherPairs : List (Str × Str)
deriving DecidableEq, Repr

/-- The heading branch (lines 308-344): match `topline`, split the line on
its first `;` for the `key=value` list, and run the pair loop.
`none` when `topline` does not match. -/
def processHeading (strict : Bool) (line : Str) : Option (Except Str HeadingData) :=
  match toplineMatch line with
  | none => none
  | some (pkg, ver, dists) =>
      let pairsStr := (splitFirst ';' line).2.getD []
      some (match processPairs strict (splitChar ',' pairsStr) ⟨[], [], none, none⟩ with
        | .error m => .error m
        | .ok kv =>
            .ok ⟨pkg, ver, dists.dropWhile isPySpace, kv.urgency,
                 kv.urgencyComment, kv.otherPairs⟩)

/-- Write the heading data onto the current block (lines 312-344):
package, raw version, `lstrip`ped distributions are assigned; urgency and
its comment only when an `urgency` key appeared; `other_pairs` is
assigned unconditionally. -/
def applyHeading (b : ChangeBlock) (hd : HeadingData) : ChangeBlock :=
  { b with
    package := some hd.package
    rawVersion := some hd.rawVersion
    distributions := some hd.distributions
    urgency := match hd.urgency with | some u => some u | none => b.urgency
    urgencyComment := match hd.urgencyComment with
      | some c => c
      | none => b.urgencyComment
    otherPairs := hd.otherPairs }

/-- A heading line is canonical when re-rendering the parsed heading
reproduces the line (headings that fail to parse are vacuously
canonical). -/
def canonicalHeading (line : Str) : Bool :=
  match processHeading true line with
  | some (.ok hd) =>
      decide (renderHeading hd.package hd.rawVersion hd.distributions
        (hd.urgency.getD "unknown".data) (hd.urgencyComment.getD [])
        hd.otherPairs = line)
  | _ => true

/-- A heading line carries at most one `key=value` pair besides
`urgency` (lines that are not parsed headings hold vacuously).  Within
this bound the model's pair rendering order agrees with the program's
dict iteration order, since a CPython 2 dict with at most one entry has
only one iteration order. -/
def fewPairs (line : Str) : Bool :=
  match processHeading true line with
  | some (.ok hd) => decide (hd.otherPairs.length ≤ 1)
  | _ => true

/-- One line in `first_heading`/`next_heading_or_eof` (lines 305-388). -/
def stepHeading (cfg : Config) (ps : ParseState) (line : Str) : StepResult :=
  match processHeading cfg.strict line with
  | some res =>
      let capped := match cfg.maxBlocks with
        | some n => decide (n ≤ ps.blocks.length)
        | none => false
      if capped then .stop ps
      else
        match res with
        | .error m => .err m ps
        | .ok hd =>
            .cont { ps with currentBlock := applyHeading ps.currentBlock hd,
                            state := .startOfChangeData }
  | none =>
      if blanklineB line then
        if ps.state = .firstHeading then
          .cont { ps with initialBlankLines := ps.initialBlankLines ++ [line] }
        else .cont { ps with blocks := modifyLast (addTrailing line) ps.blocks }
      else if (emacsB line || vimB line) && ps.state ≠ .firstHeading then
        .cont { ps with blocks := modifyLast (addTrailing line) ps.blocks,
                        oldState := some ps.state, state := .slurpToEnd }
      else if cvsB line || commentsB line || moreCommentsB line then
        if ps.state = .firstHeading then
          .cont { ps with initialBlankLines := ps.initialBlankLines ++ [line] }
        else .cont { ps with blocks := modifyLast (addTrailing line) ps.blocks }
      else if oldFormatB line && ps.state ≠ .firstHeading then
        .cont { ps with blocks := modifyLast (addTrailing line) ps.blocks,
                        oldState := some ps.state, state := .slurpToEnd }
      else if cfg.strict then
        .err ("Unexpected line while looking for ".data ++ stateName ps.state
              ++ ": ".data ++ line) ps
      else if ps.state = .firstHeading then
        .cont { ps with initialBlankLines := ps.initialBlankLines ++ [line] }
      else .cont { ps with blocks := modifyLast (addTrailing line) ps.blocks }

/-- Finalize the current block at a trailer (lines 403-410 and 416-420):
attach author/date where given and the accumulated changes, append the
block, reset the pending changes and open a fresh block. -/
def finalizeBlock (ps : ParseState) (b : ChangeBlock) : ParseState :=
  { ps with blocks := ps.blocks ++ [{ b with changes := some ps.changes }],
            changes := [], currentBlock := ChangeBlock.empty,
            state := .nextHeadingOrEof }

/-- One line in `start_of_change_data`/`more_changes_or_trailer`
(lines 389-433). -/
def stepChange (cfg : Config) (ps : ParseState) (line : Str) : StepResult :=
  if changeB line then
    .cont { ps with changes := ps.changes ++ [line],
                    state := .moreChangesOrTrailer }
  else
    match endlineMatch line with
    | some (g1, g2, g3, g4) =>
        let author := g1 ++ ' ' :: '<' :: (g2 ++ ['>'])
        if g3 ≠ [' ', ' '] then
          if cfg.strict then
            .err ("Badly formatted trailer line: ".data ++ line) ps
          else
            .cont (finalizeBlock ps
              { ps.currentBlock with trailerSep := g3,
                                     author := some author, date := some g4 })
        else
          .cont (finalizeBlock ps
            { ps.currentBlock with author := some author, date := some g4 })
    | none =>
        if endlineNodetails line then
          if !cfg.allowEmptyAuthor then
            if cfg.strict then
              .err ("Badly formatted trailer line: ".data ++ line) ps
            else .cont ps
          else .cont (finalizeBlock ps ps.currentBlock)
        else if blanklineB line then
          .cont { ps with changes := ps.changes ++ [line] }
        else if cvsB line || commentsB line || moreCommentsB line then
          .cont { ps with changes := ps.changes ++ [line] }
        else if cfg.strict then
          .err ("Unexpected line while looking for ".data ++ stateName ps.state
                ++ ": ".data ++ line) ps
        else .cont { ps with changes := ps.changes ++ [line] }

/-- Dispatch on the scanner state (the `for line in file` body). -/
def step (cfg : Config) (ps : ParseState) (line : Str) : StepResult :=
  match ps.state with
  | .firstHeading | .nextHeadingOrEof => stepHeading cfg ps line
  | .startOfChangeData | .moreChangesOrTrailer => stepChange cfg ps line
  | .slurpToEnd =>
      if ps.oldState = some .nextHeadingOrEof then
        .cont { ps with blocks := modifyLast (addTrailing line) ps.blocks }
      else .cont { ps with changes := ps.changes ++ [line] }

/-- Outcome of a whole parse: normal completion, early stop at the block
cap, or a strict-mode raise (with the state at the raise). -/
inductive RunResult
  | ok (s : ParseState)
  | stopped (s : ParseState)
  | failed (msg : Str) (s : ParseState)
deriving DecidableEq, Repr

def runLines (cfg : Config) (ps : ParseState) : List Str → RunResult
  | [] => .ok ps
  | l :: rest =>
      match step cfg ps l with
      | .cont s => runLines cfg s rest
      | .stop s => .stopped s
      | .err m s => .failed m s

/-- The end-of-input test (lines 442-443). -/
def eofIncomplete (ps : ParseState) : Bool :=
  (ps.state ≠ .nextHeadingOrEof && ps.state ≠ .slurpToEnd) ||
  (ps.state = .slurpToEnd && ps.oldState ≠ some PState.nextHeadingOrEof)

/-- Lenient end-of-input recovery (lines 446-448): attach the pending
changes, set the no-trailer flag and append the in-progress block. -/
def finalizeNoTrailer (ps : ParseState) : ParseState :=
  { ps with blocks := ps.blocks ++
      [{ ps.currentBlock with changes := some ps.changes, noTrailer := true }] }

/-- The line list a string input is turned into (lines 301-303): ensure a
trailing newline, split on `\n`, drop the synthesized empty tail. -/
def toLines (file : Str) : List Str :=
  (splitChar '\n' (if file.getLast? = some '\n' then file
                   else file ++ ['\n'])).dropLast

/-- `parse_changelog` on a string input: the empty/whitespace check,
newline normalisation, split into lines dropping the synthesized empty
tail, the scan loop, and the end-of-input handling. -/
def parseRun (cfg : Config) (file : Str) : RunResult :=
  if (strip file).isEmpty then
    if cfg.strict then .failed "Empty changelog file.".data initParseState
    else .ok initParseState
  else
    match runLines cfg initParseState (toLines file) with
    | .ok ps =>
        if eofIncomplete ps then
          if cfg.strict then
            .failed ("Found eof where expected ".data ++ stateName ps.state) ps
          else .ok (finalizeNoTrailer ps)
        else .ok ps
    | r => r

/-- The document: ordered blocks plus the leading blank-line buffer. -/
structure ChangelogDoc where
  blocks : List ChangeBlock
  initialBlankLines : List Str
deriving DecidableEq, Repr

def docOf (ps : ParseState) : ChangelogDoc := ⟨ps.blocks, ps.initialBlankLines⟩

def stateOfRun : RunResult → ParseState
  | .ok s => s
  | .stopped s => s
  | .failed _ s => s

/-- `parse_changelog` called directly on an existing document: a strict
parse error propagates to the caller. -/
def parse_changelog (cfg : Config) (file : Str) : Except Str ChangelogDoc :=
  match parseRun cfg file with
  | .ok s => .ok (docOf s)
  | .stopped s => .ok (docOf s)
  | .failed m _ => .error m

/-- `Changelog.__init__` with a file argument (lines 258-271): the
`except ChangelogParseError: pass` keeps whatever state the parse had
built when it raised. -/
def changelog_init (cfg : Config) (file : Str) : ChangelogDoc :=
  docOf (stateOfRun (parseRun cfg file))

/-- `"\n".join` (line 491) — note: one separator between entries, so a
buffer of n blank lines contributes only n-1 newlines. -/
def joinNl : List Str → Str
  | [] => []
  | [l] => l
  | l :: rest => l ++ '\n' :: joinNl rest

/-- Concatenated rendering of the blocks, propagating the first creation
error. -/
def renderBlocks : List ChangeBlock → Except Str Str
  | [] => .ok []
  | b :: rest =>
      match b.render with
      | .error m => .error m
      | .ok t =>
          match renderBlocks rest with
          | .error m => .error m
          | .ok ts => .ok (t ++ ts)

/-- `Changelog.__str__` (lines 490-494). -/
def ChangelogDoc.render (d : ChangelogDoc) : Except Str Str :=
  match renderBlocks d.blocks with
  | .error m => .error m
  | .ok ts => .ok (joinNl d.initialBlankLines ++ ts)

/-! ## Theorems about the engine -/

def strictCfg : Config := ⟨none, false, true⟩

def lenientCfg : Config := ⟨none, false, false⟩

/-- **C10.** Constructing a document from text never propagates a parse
error: when the parse raises, the constructor swallows the exception and
the document keeps exactly the state built before the raise, while the
direct `parse_changelog` call surfaces the error. -/
theorem init_swallows_parse_error (cfg : Config) (file : Str) (m : Str)
    (s : ParseState) (h : parseRun cfg file = .failed m s) :
    parse_changelog cfg file = .error m ∧ changelog_init cfg file = docOf s := by
  constructor
  · unfold parse_changelog
    rw [h]
  · unfold changelog_init stateOfRun
    rw [h]

def c10file : Str :=
  ("p1 (1.0-1) unstable; urgency=low\n\n  * a\n\n" ++
   " -- A <a@b>  Sat, 15 Jul 2006 11:11:08 +0200\n???bad line\n").data

def c10msg : Str :=
  "Unexpected line while looking for next heading of EOF: ???bad line".data

/-- Witness for `init_swallows_parse_error`: one well-formed entry
followed by a garbage line; the direct parse raises, while the
constructor keeps the one parsed block. -/
theorem init_swallows_parse_error_witness :
    (parse_changelog strictCfg c10file = .error c10msg ∧
     changelog_init strictCfg c10file
        = docOf (stateOfRun (parseRun strictCfg c10file))) ∧
    (changelog_init strictCfg c10file).blocks.length = 1 :=
  ⟨init_swallows_parse_error strictCfg c10file c10msg
      (stateOfRun (parseRun strictCfg c10file)) (by rfl), by rfl⟩

theorem runLines_cons (cfg : Config) (ps : ParseState) (l : Str) (rest : List Str) :
    runLines cfg ps (l :: rest) =
      match step cfg ps l with
      | .cont s => runLines cfg s rest
      | .stop s => .stopped s
      | .err m s => .failed m s := rfl

theorem runLines_append_ok (cfg : Config) (a : List Str) :
    ∀ (ps s : ParseState) (b : List Str), runLines cfg ps a = .ok s →
      runLines cfg ps (a ++ b) = runLines cfg s b := by
  induction a with
  | nil =>
      intro ps s b h
      cases h
      rfl
  | cons l rest ih =>
      intro ps s b h
      simp only [List.cons_append]
      rw [runLines_cons] at h ⊢
      revert h
      cases hstep : step cfg ps l with
      | cont s2 => intro h; exact ih s2 s b h
      | stop s2 => intro h; exact RunResult.noConfusion h
      | err m s2 => intro h; exact RunResult.noConfusion h

/-- **C5.** With a block cap of `n`, once a prefix of the input has been
scanned cleanly into `n` finalized blocks, the very next heading line
makes the engine stop (not raise), whatever follows — the remaining
lines, malformed or not, are never scanned. -/
theorem max_blocks_stops (cfg : Config) (n : Nat) (hcap : cfg.maxBlocks = some n)
    (prefixLines : List Str) (stP : ParseState)
    (hrun : runLines cfg initParseState prefixLines = .ok stP)
    (hstate : stP.state = .nextHeadingOrEof) (hlen : stP.blocks.length = n)
    (h : Str) (hh : (toplineMatch h).isSome = true) (rest : List Str) :
    runLines cfg initParseState (prefixLines ++ h :: rest) = .stopped stP := by
  rw [runLines_append_ok cfg prefixLines initParseState stP (h :: rest) hrun]
  have hstep : step cfg stP h = .stop stP := by
    unfold step
    rw [hstate]
    obtain ⟨⟨pkg, ver, dists⟩, htm⟩ := Option.isSome_iff_exists.mp hh
    unfold stepHeading processHeading
    rw [htm]
    simp [hcap, hlen]
  simp only [runLines, hstep]

def c5cfg : Config := ⟨some 1, false, true⟩

def c5pre : List Str :=
  toLines ("p1 (1.0-1) unstable; urgency=low\n\n  * a\n\n" ++
           " -- A <a@b>  Sat, 15 Jul 2006 11:11:08 +0200\n").data

def c5state : ParseState := stateOfRun (runLines c5cfg initParseState c5pre)

/-- Witness for `max_blocks_stops`: one parsed block, cap 1; the second
heading stops the scan and the following garbage line is never seen. -/
theorem max_blocks_stops_witness :
    runLines c5cfg initParseState
      (c5pre ++ "p2 (2.0-1) unstable; urgency=low".data
          :: ["GARBAGE ???".data]) = .stopped c5state ∧
    c5state.blocks.length = 1 :=
  ⟨max_blocks_stops c5cfg 1 rfl c5pre c5state (by rfl) (by rfl) (by rfl)
      "p2 (2.0-1) unstable; urgency=low".data (by rfl) ["GARBAGE ???".data],
   by rfl⟩

/-! ### A strict scan that succeeds is mode-independent

Every `_parse_error` call raises under `strict`; a strict scan that
returns normally therefore never reached an error site, and the lenient
scan of the same input takes exactly the same branches. -/

theorem processPairs_strict_ok (pairs : List Str) : ∀ (st kv : KvState),
    processPairs true pairs st = .ok kv → processPairs false pairs st = .ok kv := by
  induction pairs with
  | nil => intro st kv h; exact h
  | cons pr rest ih =>
      intro st kv h
      simp only [processPairs] at h ⊢
      revert h
      cases hkv : keyvalueMatch (strip pr) with
      | none => intro h; exact Except.noConfusion h
      | some kv0 =>
          obtain ⟨key, value⟩ := kv0
          intro h
          dsimp only at h ⊢
          by_cases hc : st.allKeys.contains (key.map lowerChar) = true
          · rw [if_pos (by simp only [Bool.and_true]; exact hc)] at h
            exact Except.noConfusion h
          · rw [if_neg (by simp only [Bool.and_true]; exact hc)] at h
            rw [if_neg (by simp)]
            revert h
            by_cases hu : key.map lowerChar = "urgency".data
            · rw [if_pos hu, if_pos hu]
              cases hvr : valueReMatch value with
              | none => intro h; exact Except.noConfusion h
              | some uc =>
                  obtain ⟨u, com⟩ := uc
                  intro h
                  exact ih _ _ h
            · rw [if_neg hu, if_neg hu]
              intro h
              exact ih _ _ h

theorem processHeading_strict_ok (line : Str) (hd : HeadingData)
    (h : processHeading true line = some (.ok hd)) :
    processHeading false line = some (.ok hd) := by
  simp only [processHeading] at h ⊢
  revert h
  cases htm : toplineMatch line with
  | none => intro h; exact Option.noConfusion h
  | some x =>
      obtain ⟨pkg, ver, dists⟩ := x
      intro h
      dsimp only at h ⊢
      revert h
      cases hpp : processPairs true (splitChar ','
          ((splitFirst ';' line).2.getD [])) ⟨[], [], none, none⟩ with
      | error m => intro h; simp at h
      | ok kv =>
          intro h
          rw [processPairs_strict_ok _ _ _ hpp]
          exact h

theorem processHeading_strict_none (line : Str)
    (h : processHeading true line = none) :
    processHeading false line = none := by
  simp only [processHeading] at h ⊢
  revert h
  cases htm : toplineMatch line with
  | none => intro h; rfl
  | some x =>
      obtain ⟨pkg, ver, dists⟩ := x
      intro h
      exact Option.noConfusion h

theorem stepHeading_strict_cont (mb : Option Nat) (aea : Bool) (ps : ParseState)
    (line : Str) (s : ParseState)
    (h : stepHeading ⟨mb, aea, true⟩ ps line = .cont s) :
    stepHeading ⟨mb, aea, false⟩ ps line = .cont s := by
  simp only [stepHeading] at h ⊢
  revert h
  cases hph : processHeading true line with
  | some res =>
      cases res with
      | error m =>
          intro h
          dsimp only at h
          split at h
          · exact StepResult.noConfusion h
          · exact StepResult.noConfusion h
      | ok hd =>
          intro h
          rw [processHeading_strict_ok line hd hph]
          dsimp only at h ⊢
          split at h
          · exact StepResult.noConfusion h
          · rename_i hcap
            rw [if_neg hcap]
            exact h
  | none =>
      intro h
      rw [processHeading_strict_none line hph]
      dsimp only at h ⊢
      split at h
      · rename_i h1
        rw [if_pos h1]
        exact h
      · rename_i h1
        rw [if_neg h1]
        split at h
        · rename_i h2
          rw [if_pos h2]
          exact h
        · rename_i h2
          rw [if_neg h2]
          split at h
          · rename_i h3
            rw [if_pos h3]
            exact h
          · rename_i h3
            rw [if_neg h3]
            split at h
            · rename_i h4
              rw [if_pos h4]
              exact h
            · rename_i h4
              rw [if_neg h4]
              split at h
              · exact StepResult.noConfusion h
              · rename_i h5
                rw [if_neg (by simp)]
                exact h

theorem stepChange_strict_cont (mb : Option Nat) (aea : Bool) (ps : ParseState)
    (line : Str) (s : ParseState)
    (h : stepChange ⟨mb, aea, true⟩ ps line = .cont s) :
    stepChange ⟨mb, aea, false⟩ ps line = .cont s := by
  simp only [stepChange] at h ⊢
  split at h
  · rename_i h1
    rw [if_pos h1]
    exact h
  · rename_i h1
    rw [if_neg h1]
    revert h
    cases hel : endlineMatch line with
    | some g =>
        obtain ⟨g1, g2, g3, g4⟩ := g
        intro h
        dsimp only at h ⊢
        split at h
        · split at h
          · exact StepResult.noConfusion h
          · rename_i hs
            exact absurd trivial hs
        · rename_i h2
          rw [if_neg h2]
          exact h
    | none =>
        intro h
        dsimp only at h ⊢
        split at h
        · rename_i h2
          rw [if_pos h2]
          split at h
          · rename_i h3
            rw [if_pos h3]
            split at h
            · exact StepResult.noConfusion h
            · rename_i hs
              exact absurd trivial hs
          · rename_i h3
            rw [if_neg h3]
            exact h
        · rename_i h2
          rw [if_neg h2]
          split at h
          · rename_i h3
            rw [if_pos h3]
            exact h
          · rename_i h3
            rw [if_neg h3]
            split at h
            · rename_i h4
              rw [if_pos h4]
              exact h
            · rename_i h4
              rw [if_neg h4]
              split at h
              · exact StepResult.noConfusion h
              · rw [if_neg (by simp)]
                exact h

/-- A strict step that continues is unchanged by turning strictness off:
no recoverable-error site was reached. -/
theorem step_strict_cont (mb : Option Nat) (aea : Bool) (ps : ParseState)
    (line : Str) (s : ParseState)
    (h : step ⟨mb, aea, true⟩ ps line = .cont s) :
    step ⟨mb, aea, false⟩ ps line = .cont s := by
  unfold step at h ⊢
  revert h
  cases ps.state with
  | firstHeading => exact fun h => stepHeading_strict_cont mb aea ps line s h
  | nextHeadingOrEof => exact fun h => stepHeading_strict_cont mb aea ps line s h
  | startOfChangeData => exact fun h => stepChange_strict_cont mb aea ps line s h
  | moreChangesOrTrailer => exact fun h => stepChange_strict_cont mb aea ps line s h
  | slurpToEnd => exact fun h => h

/-- A strict scan that completes normally is reproduced line for line by
the lenient scan. -/
theorem runLines_strict_ok (mb : Option Nat) (aea : Bool) (lines : List Str) :
    ∀ (ps s : ParseState), runLines ⟨mb, aea, true⟩ ps lines = .ok s →
      runLines ⟨mb, aea, false⟩ ps lines = .ok s := by
  induction lines with
  | nil => intro ps s h; exact h
  | cons l rest ih =>
      intro ps s h
      rw [runLines_cons] at h ⊢
      revert h
      cases hstep : step ⟨mb, aea, true⟩ ps l with
      | cont s2 =>
          intro h
          rw [step_strict_cont mb aea ps l s2 hstep]
          exact ih s2 s h
      | stop s2 => intro h; exact RunResult.noConfusion h
      | err m s2 => intro h; exact RunResult.noConfusion h

/-- **C6.** When the scan of the whole input ends cleanly but inside a
change body (notes pending, no trailer seen), strict parsing raises the
premature-end error while lenient parsing finalizes the block with the
no-trailer flag set and all pending notes attached. -/
theorem no_trailer_lenient_vs_strict (file : Str) (st : ParseState)
    (hne : (strip file).isEmpty = false)
    (hrun : runLines strictCfg initParseState (toLines file) = .ok st)
    (hstate : st.state = .startOfChangeData ∨ st.state = .moreChangesOrTrailer) :
    parseRun strictCfg file =
      .failed ("Found eof where expected ".data ++ stateName st.state) st ∧
    parseRun lenientCfg file = .ok (finalizeNoTrailer st) ∧
    (∃ b, (finalizeNoTrailer st).blocks = st.blocks ++ [b] ∧
      b.noTrailer = true ∧ b.changes = some st.changes) := by
  have hinc : eofIncomplete st = true := by
    rcases hstate with h | h <;> simp [eofIncomplete, h]
  refine ⟨?_, ?_, ⟨_, rfl, rfl, rfl⟩⟩
  · unfold parseRun
    rw [if_neg (by simp [hne])]
    rw [hrun]
    dsimp only
    rw [if_pos hinc, if_pos (by rfl)]
  · unfold parseRun
    rw [if_neg (by simp [hne])]
    have hlen : runLines lenientCfg initParseState (toLines file) = .ok st :=
      runLines_strict_ok none false (toLines file) initParseState st hrun
    rw [hlen]
    dsimp only
    rw [if_pos hinc, if_neg (by simp [lenientCfg])]

def c6file : Str := "p1 (1.0-1) unstable; urgency=low\n\n  * a\n".data

def c6state : ParseState :=
  stateOfRun (runLines strictCfg initParseState (toLines c6file))

/-- Witness for `no_trailer_lenient_vs_strict`: a one-entry changelog cut
off before its trailer line; strict parsing raises, lenient parsing
yields one block with the no-trailer flag and both pending note lines. -/
theorem no_trailer_lenient_vs_strict_witness :
    (parseRun strictCfg c6file =
      .failed ("Found eof where expected ".data ++ stateName c6state.state)
        c6state ∧
     parseRun lenientCfg c6file = .ok (finalizeNoTrailer c6state) ∧
     (∃ b, (finalizeNoTrailer c6state).blocks = c6state.blocks ++ [b] ∧
       b.noTrailer = true ∧ b.changes = some c6state.changes)) ∧
    (finalizeNoTrailer c6state).blocks.length = 1 ∧
    c6state.changes = [[], "  * a".data] :=
  ⟨no_trailer_lenient_vs_strict c6file c6state (by rfl) (by rfl)
      (Or.inr (by rfl)), by rfl, by rfl⟩

/-- **C7.** In a change-body state, a bare ` --` trailer (matched by
`endline_nodetails` but not `endline`): with empty-author mode off it is
a recoverable error (raising in strict mode, dropped in lenient mode);
with it on, the block is finalized with author and date left unset and
the no-trailer flag still clear. -/
theorem empty_author_trailer (cfg : Config) (ps : ParseState) (line : Str)
    (hstate : ps.state = .startOfChangeData ∨ ps.state = .moreChangesOrTrailer)
    (hend : endlineMatch line = none) (hnod : endlineNodetails line = true)
    (ha : ps.currentBlock.author = none) (hd : ps.currentBlock.date = none)
    (hnt : ps.currentBlock.noTrailer = false) :
    (cfg.allowEmptyAuthor = false → cfg.strict = true →
      step cfg ps line = .err ("Badly formatted trailer line: ".data ++ line) ps) ∧
    (cfg.allowEmptyAuthor = false → cfg.strict = false →
      step cfg ps line = .cont ps) ∧
    (cfg.allowEmptyAuthor = true →
      step cfg ps line = .cont (finalizeBlock ps ps.currentBlock) ∧
      ∃ b, (finalizeBlock ps ps.currentBlock).blocks = ps.blocks ++ [b] ∧
        b.author = none ∧ b.date = none ∧ b.noTrailer = false ∧
        b.changes = some ps.changes) := by
  have hch : changeB line = false := by
    have hpre : (" --".data).isPrefixOf line = true := by
      unfold endlineNodetails at hnod
      rw [hend] at hnod
      simp only [Option.isSome_none, Bool.or_false, Bool.and_eq_true] at hnod
      exact hnod.1
    obtain ⟨t, rfl⟩ : ∃ t, line = " --".data ++ t := by
      obtain ⟨t, ht⟩ := List.isPrefixOf_iff_prefix.mp hpre
      exact ⟨t, ht.symm⟩
    rfl
  have hdispatch : step cfg ps line = stepChange cfg ps line := by
    unfold step
    rcases hstate with h | h <;> rw [h]
  refine ⟨?_, ?_, ?_⟩
  · intro haea hs
    rw [hdispatch]
    unfold stepChange
    rw [if_neg (by simp [hch]), hend]
    dsimp only
    rw [if_pos hnod, if_pos (by simp [haea]), if_pos hs]
  · intro haea hs
    rw [hdispatch]
    unfold stepChange
    rw [if_neg (by simp [hch]), hend]
    dsimp only
    rw [if_pos hnod, if_pos (by simp [haea]), if_neg (by simp [hs])]
  · intro haea
    constructor
    · rw [hdispatch]
      unfold stepChange
      rw [if_neg (by simp [hch]), hend]
      dsimp only
      rw [if_pos hnod, if_neg (by simp [haea])]
    · exact ⟨_, rfl, by simp [ha], by simp [hd], by simp [hnt], by simp⟩

def c7line : Str := " --".data

def c7state : ParseState :=
  { initParseState with state := .startOfChangeData,
                        changes := ["  * a".data] }

/-- Witness for `empty_author_trailer` at a bare `" --"` line: strict
without empty-author mode raises; with empty-author mode the block is
finalized with author and date unset. -/
theorem empty_author_trailer_witness :
    (step ⟨none, false, true⟩ c7state c7line =
      .err ("Badly formatted trailer line: ".data ++ c7line) c7state) ∧
    (step ⟨none, true, true⟩ c7state c7line =
      .cont (finalizeBlock c7state c7state.currentBlock) ∧
     ∃ b, (finalizeBlock c7state c7state.currentBlock).blocks =
         c7state.blocks ++ [b] ∧
       b.author = none ∧ b.date = none ∧ b.noTrailer = false ∧
       b.changes = some c7state.changes) :=
  ⟨(empty_author_trailer ⟨none, false, true⟩ c7state c7line (Or.inl rfl)
      (by rfl) (by rfl) (by rfl) (by rfl) (by rfl)).1 rfl rfl,
   (empty_author_trailer ⟨none, true, true⟩ c7state c7line (Or.inl rfl)
      (by rfl) (by rfl) (by rfl) (by rfl) (by rfl)).2.2 rfl⟩

def c1fail1 : Str :=
  ("\np1 (1.0-1) unstable; urgency=low\n\n  * a\n\n" ++
   " -- A <a@b>  Sat, 15 Jul 2006 11:11:08 +0200\n").data

def c1fail2 : Str :=
  ("p1 (1.0-1) unstable; urgency=low\n\n  * a\n\n" ++
   " -- A <a@b>  Sat, 15 Jul 2006 11:11:08 +0200").data

def c1fail3 : Str :=
  ("p1 (1.0-1) unstable;urgency=low\n\n  * a\n\n" ++
   " -- A <a@b>  Sat, 15 Jul 2006 11:11:08 +0200\n").data

/-- **C1 counterexample.** Three inputs that strict-parse successfully but
do not re-render byte-for-byte: a leading blank line (the `"\n".join` of
the blank-line buffer loses one newline), a missing final newline (the
parser synthesizes one and rendering emits it), and a heading written
`;urgency=low` without a space (re-rendered as `; urgency=low`). -/
theorem roundtrip_counterexample :
    (∃ d r, parse_changelog strictCfg c1fail1 = .ok d ∧
       d.render = .ok r ∧ r ≠ c1fail1) ∧
    (∃ d r, parse_changelog strictCfg c1fail2 = .ok d ∧
       d.render = .ok r ∧ r ≠ c1fail2) ∧
    (∃ d r, parse_changelog strictCfg c1fail3 = .ok d ∧
       d.render = .ok r ∧ r ≠ c1fail3) := by
  refine ⟨⟨_, _, rfl, rfl, by decide⟩, ⟨_, _, rfl, rfl, by decide⟩,
          ⟨_, _, rfl, rfl, by decide⟩⟩

/-! ### Reassembling the split lines -/

theorem joinNl_cons (p : Str) (xs : List Str) (h : xs ≠ []) :
    joinNl (p :: xs) = p ++ '\n' :: joinNl xs := by
  cases xs with
  | nil => exact absurd rfl h
  | cons q rest => rfl

theorem splitChar_ne_nil (sep : Char) (l : Str) : splitChar sep l ≠ [] := by
  cases l with
  | nil => simp [splitChar]
  | cons c cs =>
      unfold splitChar
      split
      · simp
      · split
        · simp
        · simp

theorem joinNl_cons_head (c : Char) (h : Str) (t : List Str) :
    joinNl ((c :: h) :: t) = c :: joinNl (h :: t) := by
  cases t <;> rfl

theorem joinNl_splitChar (l : Str) : joinNl (splitChar '\n' l) = l := by
  induction l with
  | nil => rfl
  | cons c cs ih =>
      unfold splitChar
      by_cases hc : c = '\n'
      · rw [if_pos hc, joinNl_cons [] (splitChar '\n' cs) (splitChar_ne_nil '\n' cs),
            ih, hc]
        rfl
      · rw [if_neg hc]
        revert ih
        cases hs : splitChar '\n' cs with
        | nil => exact absurd hs (splitChar_ne_nil '\n' cs)
        | cons h t =>
            intro ih
            rw [joinNl_cons_head, ih]

theorem splitChar_eq_single (cs : Str) (h : splitChar '\n' cs = [[]]) : cs = [] := by
  cases cs with
  | nil => rfl
  | cons c cs' =>
      exfalso
      unfold splitChar at h
      by_cases hc : c = '\n'
      · rw [if_pos hc] at h
        have := splitChar_ne_nil '\n' cs'
        cases hs : splitChar '\n' cs' with
        | nil => exact this hs
        | cons p rest =>
            rw [hs] at h
            simp at h
      · rw [if_neg hc] at h
        revert h
        cases hs : splitChar '\n' cs' with
        | nil => intro h; exact absurd hs (splitChar_ne_nil '\n' cs')
        | cons p rest => intro h; simp at h

theorem splitChar_last_empty (l : Str) : l.getLast? = some '\n' →
    ∃ parts, splitChar '\n' l = parts ++ [[]] := by
  induction l with
  | nil => intro h; exact Option.noConfusion h
  | cons c cs ih =>
      intro h
      cases cs with
      | nil =>
          simp only [List.getLast?_singleton, Option.some.injEq] at h
          subst h
          exact ⟨[[]], rfl⟩
      | cons c2 cs2 =>
          rw [List.getLast?_cons_cons] at h
          obtain ⟨parts, hp⟩ := ih h
          unfold splitChar
          by_cases hc : c = '\n'
          · rw [if_pos hc, hp]
            exact ⟨[] :: parts, rfl⟩
          · rw [if_neg hc]
            revert hp
            cases hs : splitChar '\n' (c2 :: cs2) with
            | nil => intro hp; exact absurd hs (splitChar_ne_nil '\n' (c2 :: cs2))
            | cons p rest =>
                intro hp
                cases parts with
                | nil =>
                    simp only [List.nil_append, List.cons.injEq] at hp
                    obtain ⟨rfl, rfl⟩ := hp
                    exact absurd (splitChar_eq_single (c2 :: cs2) hs) (by simp)
                | cons p0 parts' =>
                    simp only [List.cons_append, List.cons.injEq] at hp
                    obtain ⟨rfl, rfl⟩ := hp
                    exact ⟨(c :: p) :: parts', rfl⟩

theorem joinNl_concat_empty (parts : List Str) :
    joinNl (parts ++ [[]]) = renderLines parts := by
  induction parts with
  | nil => rfl
  | cons p rest ih =>
      simp only [List.cons_append]
      rw [joinNl_cons p (rest ++ [[]]) (by simp), ih]
      rfl

theorem renderLines_toLines (file : Str) (h : file.getLast? = some '\n') :
    renderLines (toLines file) = file := by
  unfold toLines
  rw [if_pos h]
  obtain ⟨parts, hp⟩ := splitChar_last_empty file h
  rw [hp, List.dropLast_concat, ← joinNl_concat_empty, ← hp, joinNl_splitChar]

/-! ### Render bookkeeping -/

theorem renderLines_append (a b : List Str) :
    renderLines (a ++ b) = renderLines a ++ renderLines b := by
  induction a with
  | nil => rfl
  | cons l rest ih =>
      simp only [List.cons_append, renderLines, List.append_eq, ih,
                 List.append_assoc]

theorem render_addTrailing (b : ChangeBlock) (l : Str) (t : Str)
    (h : b.render = .ok t) :
    (addTrailing l b).render = .ok (t ++ l ++ ['\n']) := by
  obtain ⟨pkg, ver, dist, urg, ucom, chs, auth, date, tr, ops, nt, sep⟩ := b
  unfold ChangeBlock.render at h ⊢
  unfold addTrailing
  dsimp only at h ⊢
  rcases pkg with _ | pkg <;>
  rcases ver with _ | ver <;>
  rcases dist with _ | dist <;>
  rcases urg with _ | urg <;>
  rcases chs with _ | chs <;>
  rcases nt with _ | _ <;>
  rcases auth with _ | auth <;>
  rcases date with _ | date <;>
  simp_all [renderLines_append, renderLines] <;>
  (subst h; simp [List.append_assoc])

theorem renderBlocks_cons (b : ChangeBlock) (rest : List ChangeBlock) :
    renderBlocks (b :: rest) =
      match b.render with
      | .error m => .error m
      | .ok t =>
          match renderBlocks rest with
          | .error m => .error m
          | .ok ts => .ok (t ++ ts) := rfl

theorem renderBlocks_append_one (bs : List ChangeBlock) :
    ∀ (d : Str) (b : ChangeBlock) (t : Str),
    renderBlocks bs = .ok d → b.render = .ok t →
    renderBlocks (bs ++ [b]) = .ok (d ++ t) := by
  induction bs with
  | nil =>
      intro d b t hd ht
      cases hd
      simp only [List.nil_append, renderBlocks_cons, ht]
      simp [renderBlocks]
  | cons b0 rest ih =>
      intro d b t hd ht
      rw [renderBlocks_cons] at hd
      revert hd
      cases h0 : b0.render with
      | error m => intro hd; exact Except.noConfusion hd
      | ok t0 =>
          intro hd
          revert hd
          cases hr : renderBlocks rest with
          | error m => intro hd; exact Except.noConfusion hd
          | ok ts =>
              intro hd
              obtain rfl := Except.ok.inj hd
              have hih := ih ts b t hr ht
              simp only [List.cons_append, renderBlocks_cons, h0, hih]
              rw [List.append_assoc]

theorem renderBlocks_modifyLast (bs : List ChangeBlock) :
    ∀ (d : Str) (l : Str), bs ≠ [] → renderBlocks bs = .ok d →
    renderBlocks (modifyLast (addTrailing l) bs) = .ok (d ++ l ++ ['\n']) := by
  induction bs with
  | nil => intro d l hne _; exact absurd rfl hne
  | cons b0 rest ih =>
      intro d l _ hd
      rw [renderBlocks_cons] at hd
      revert hd
      cases h0 : b0.render with
      | error m => intro hd; exact Except.noConfusion hd
      | ok t0 =>
          intro hd
          revert hd
          cases hr : renderBlocks rest with
          | error m => intro hd; exact Except.noConfusion hd
          | ok ts =>
              intro hd
              obtain rfl := Except.ok.inj hd
              cases rest with
              | nil =>
                  cases hr
                  have hmod : modifyLast (addTrailing l) [b0] =
                      [addTrailing l b0] := rfl
                  rw [hmod, renderBlocks_cons,
                      render_addTrailing b0 l t0 h0]
                  simp [renderBlocks, List.append_assoc]
              | cons b1 rest2 =>
                  have hmod : modifyLast (addTrailing l) (b0 :: b1 :: rest2) =
                      b0 :: modifyLast (addTrailing l) (b1 :: rest2) := rfl
                  rw [hmod, renderBlocks_cons, h0,
                      ih ts l (by simp) hr]
                  simp [List.append_assoc]

/-! ### Soundness of the trailer matcher -/

theorem splitsOn_sound (pat l pre post : Str)
    (h : (pre, post) ∈ splitsOn pat l) : pre ++ (pat ++ post) = l := by
  unfold splitsOn at h
  obtain ⟨i, _, hq⟩ := List.mem_filterMap.mp h
  revert hq
  by_cases hp : pat.isPrefixOf (l.drop i) = true
  · rw [if_pos hp]
    intro hq
    obtain ⟨h1, h2⟩ : l.take i = pre ∧ l.drop (i + pat.length) = post := by
      have := Option.some.inj hq
      exact ⟨congrArg Prod.fst this, congrArg Prod.snd this⟩
    obtain ⟨t, ht⟩ := List.isPrefixOf_iff_prefix.mp hp
    have hpost : post = t := by
      rw [← h2]
      have hdd : l.drop (i + pat.length) = (l.drop i).drop pat.length := by
        rw [List.drop_drop, Nat.add_comm]
      rw [hdd, ← ht]
      simp
    rw [← h1, hpost, ht]
    exact List.take_append_drop i l
  · rw [if_neg hp]
    intro hq
    exact Option.noConfusion hq

theorem endlineMatch_sound (l : Str) (g1 g2 g3 g4 : Str)
    (h : endlineMatch l = some (g1, g2, g3, g4)) :
    l = " -- ".data ++ (g1 ++ (" <".data ++ (g2 ++ '>' :: (g3 ++ g4)))) := by
  unfold endlineMatch at h
  revert h
  by_cases hpre : (" -- ".data).isPrefixOf l = true
  · rw [if_pos hpre]
    intro h
    dsimp only at h
    obtain ⟨p1, hm1, hf1⟩ := List.exists_of_findSome?_eq_some h
    obtain ⟨a1, rest1⟩ := p1
    dsimp only at hf1
    obtain ⟨p2, hm2, hf2⟩ := List.exists_of_findSome?_eq_some hf1
    obtain ⟨a2, rest2⟩ := p2
    dsimp only at hf2
    have hs1 : a1 ++ (" <".data ++ rest1) = l.drop 4 :=
      splitsOn_sound _ _ _ _ (List.mem_reverse.mp hm1)
    have hs2 : a2 ++ (['>'] ++ rest2) = rest1 :=
      splitsOn_sound _ _ _ _ (List.mem_reverse.mp hm2)
    have hl : l = " -- ".data ++ l.drop 4 := by
      obtain ⟨t, ht⟩ := List.isPrefixOf_iff_prefix.mp hpre
      rw [← ht]
      simp
    revert hf2
    by_cases h2sp : (([' ', ' '] : Str).isPrefixOf rest2 &&
        dateMatch (rest2.drop 2)) = true
    · rw [if_pos h2sp]
      intro hf2
      obtain ⟨he1, he2, he3, he4⟩ :
          a1 = g1 ∧ a2 = g2 ∧ ([' ', ' '] : Str) = g3 ∧ rest2.drop 2 = g4 := by
        have := Option.some.inj hf2
        refine ⟨congrArg (fun x => x.1) this, congrArg (fun x => x.2.1) this,
                congrArg (fun x => x.2.2.1) this, congrArg (fun x => x.2.2.2) this⟩
      have hr2 : rest2 = g3 ++ g4 := by
        simp only [Bool.and_eq_true] at h2sp
        obtain ⟨t, ht⟩ := List.isPrefixOf_iff_prefix.mp h2sp.1
        rw [← he3, ← he4, ← ht]
        simp
      rw [hl, ← hs1, ← hs2, hr2, he1, he2]
      rfl
    · rw [if_neg h2sp]
      by_cases h1sp : (([' '] : Str).isPrefixOf rest2 &&
          dateMatch (rest2.drop 1)) = true
      · rw [if_pos h1sp]
        intro hf2
        obtain ⟨he1, he2, he3, he4⟩ :
            a1 = g1 ∧ a2 = g2 ∧ ([' '] : Str) = g3 ∧ rest2.drop 1 = g4 := by
          have := Option.some.inj hf2
          refine ⟨congrArg (fun x => x.1) this, congrArg (fun x => x.2.1) this,
                  congrArg (fun x => x.2.2.1) this, congrArg (fun x => x.2.2.2) this⟩
        have hr2 : rest2 = g3 ++ g4 := by
          simp only [Bool.and_eq_true] at h1sp
          obtain ⟨t, ht⟩ := List.isPrefixOf_iff_prefix.mp h1sp.1
          rw [← he3, ← he4, ← ht]
          simp
        rw [hl, ← hs1, ← hs2, hr2, he1, he2]
        rfl
      · rw [if_neg h1sp]
        intro hf2
        exact Option.noConfusion hf2
  · rw [if_neg hpre]
    intro h
    exact Option.noConfusion h

/-! ### Without a block cap the engine never stops early -/

theorem stepHeading_no_stop (cfg : Config) (hmb : cfg.maxBlocks = none)
    (ps : ParseState) (l : Str) (s : ParseState) :
    stepHeading cfg ps l ≠ .stop s := by
  intro hcon
  simp only [stepHeading] at hcon
  revert hcon
  cases hph : processHeading cfg.strict l with
  | some res =>
      intro hcon
      simp only [hmb] at hcon
      try dsimp only at hcon
      cases res with
      | error m => exact StepResult.noConfusion hcon
      | ok hd => exact StepResult.noConfusion hcon
  | none =>
      intro hcon
      dsimp only at hcon
      revert hcon
      (repeat' split) <;> intro hcon <;> exact StepResult.noConfusion hcon

theorem stepChange_no_stop (cfg : Config) (ps : ParseState) (l : Str)
    (s : ParseState) : stepChange cfg ps l ≠ .stop s := by
  intro hcon
  unfold stepChange at hcon
  try dsimp only at hcon
  revert hcon
  (repeat' split) <;> intro hcon <;> exact StepResult.noConfusion hcon

theorem step_no_stop (cfg : Config) (hmb : cfg.maxBlocks = none)
    (ps : ParseState) (l : Str) (s : ParseState) :
    step cfg ps l ≠ .stop s := by
  intro hcon
  unfold step at hcon
  revert hcon
  cases ps.state with
  | firstHeading => intro hcon; exact stepHeading_no_stop cfg hmb ps l s hcon
  | nextHeadingOrEof => intro hcon; exact stepHeading_no_stop cfg hmb ps l s hcon
  | startOfChangeData => intro hcon; exact stepChange_no_stop cfg ps l s hcon
  | moreChangesOrTrailer => intro hcon; exact stepChange_no_stop cfg ps l s hcon
  | slurpToEnd =>
      intro hcon
      by_cases ho : ps.oldState = some PState.nextHeadingOrEof
      · rw [if_pos ho] at hcon
        exact StepResult.noConfusion hcon
      · rw [if_neg ho] at hcon
        exact StepResult.noConfusion hcon

theorem runLines_no_stopped (cfg : Config) (hmb : cfg.maxBlocks = none)
    (lines : List Str) : ∀ ps s, runLines cfg ps lines ≠ .stopped s := by
  induction lines with
  | nil => intro ps s hcon; exact RunResult.noConfusion hcon
  | cons l rest ih =>
      intro ps s hcon
      rw [runLines_cons] at hcon
      revert hcon
      cases hstep : step cfg ps l with
      | cont s2 => intro hcon; exact ih s2 s hcon
      | stop s2 => intro _; exact step_no_stop cfg hmb ps l s2 hstep
      | err m s2 => intro hcon; exact RunResult.noConfusion hcon

theorem parse_ok_inv (file : Str) (d : ChangelogDoc)
    (h : parse_changelog strictCfg file = .ok d) :
    ∃ ps, runLines strictCfg initParseState (toLines file) = .ok ps ∧
      eofIncomplete ps = false ∧ d = docOf ps ∧
      (strip file).isEmpty = false := by
  unfold parse_changelog parseRun at h
  revert h
  by_cases hne : (strip file).isEmpty = true
  · rw [if_pos hne]
    intro h
    exact Except.noConfusion h
  · rw [if_neg hne]
    intro h
    revert h
    cases hrl : runLines strictCfg initParseState (toLines file) with
    | ok ps =>
        intro h
        dsimp only at h
        revert h
        by_cases hinc : eofIncomplete ps = true
        · rw [if_pos hinc]
          intro h
          exact Except.noConfusion h
        · rw [if_neg hinc]
          intro h
          obtain rfl := (Except.ok.inj h).symm
          exact ⟨ps, rfl, by simpa using hinc, rfl, by simpa using hne⟩
    | stopped ps =>
        intro _
        exact absurd hrl (runLines_no_stopped strictCfg rfl (toLines file)
          initParseState ps)
    | failed m ps =>
        intro h
        exact Except.noConfusion h

/-! ### The leading-blank-line buffer only ever grows -/

theorem blanksExtend_stepHeading (cfg : Config) (ps : ParseState) (line : Str)
    (s : ParseState) (h : stepHeading cfg ps line = .cont s) :
    ∃ t, s.initialBlankLines = ps.initialBlankLines ++ t := by
  simp only [stepHeading] at h
  repeat' split at h
  all_goals
    first
      | exact StepResult.noConfusion h
      | (cases h
         first
           | (refine ⟨[], ?_⟩; simp; done)
           | (refine ⟨[line], ?_⟩; simp; done))

theorem blanksExtend_stepChange (cfg : Config) (ps : ParseState) (line : Str)
    (s : ParseState) (h : stepChange cfg ps line = .cont s) :
    ∃ t, s.initialBlankLines = ps.initialBlankLines ++ t := by
  unfold stepChange at h
  try dsimp only at h
  repeat' split at h
  all_goals
    first
      | exact StepResult.noConfusion h
      | (cases h
         refine ⟨[], ?_⟩
         simp [finalizeBlock])

theorem blanksExtend_step (cfg : Config) (ps : ParseState) (line : Str)
    (s : ParseState) (h : step cfg ps line = .cont s) :
    ∃ t, s.initialBlankLines = ps.initialBlankLines ++ t := by
  unfold step at h
  revert h
  cases ps.state with
  | firstHeading => intro h; exact blanksExtend_stepHeading cfg ps line s h
  | nextHeadingOrEof => intro h; exact blanksExtend_stepHeading cfg ps line s h
  | startOfChangeData => intro h; exact blanksExtend_stepChange cfg ps line s h
  | moreChangesOrTrailer => intro h; exact blanksExtend_stepChange cfg ps line s h
  | slurpToEnd =>
      intro h
      revert h
      by_cases ho : ps.oldState = some PState.nextHeadingOrEof
      · rw [if_pos ho]
        intro h
        obtain rfl := StepResult.cont.inj h
        exact ⟨[], by simp⟩
      · rw [if_neg ho]
        intro h
        obtain rfl := StepResult.cont.inj h
        exact ⟨[], by simp⟩

theorem blanksExtend_run (cfg : Config) (lines : List Str) :
    ∀ (ps s : ParseState), runLines cfg ps lines = .ok s →
    ∃ t, s.initialBlankLines = ps.initialBlankLines ++ t := by
  induction lines with
  | nil =>
      intro ps s h
      cases h
      exact ⟨[], by simp⟩
  | cons l rest ih =>
      intro ps s h
      rw [runLines_cons] at h
      revert h
      cases hstep : step cfg ps l with
      | cont s2 =>
          intro h
          obtain ⟨t1, ht1⟩ := blanksExtend_step cfg ps l s2 hstep
          obtain ⟨t2, ht2⟩ := ih s2 s h
          exact ⟨t1 ++ t2, by rw [ht2, ht1, List.append_assoc]⟩
      | stop s2 => intro h; exact RunResult.noConfusion h
      | err m s2 => intro h; exact RunResult.noConfusion h

/-! ### The round-trip invariant -/

theorem modifyLast_ne_nil (f : ChangeBlock → ChangeBlock)
    (bs : List ChangeBlock) (h : bs ≠ []) : modifyLast f bs ≠ [] := by
  cases bs with
  | nil => exact absurd rfl h
  | cons b rest => cases rest <;> simp [modifyLast]

theorem canonicalHeading_ok (line : Str) (hd : HeadingData)
    (hph : processHeading true line = some (.ok hd))
    (hcanon : canonicalHeading line = true) :
    renderHeading hd.package hd.rawVersion hd.distributions
      (hd.urgency.getD "unknown".data) (hd.urgencyComment.getD [])
      hd.otherPairs = line := by
  unfold canonicalHeading at hcanon
  rw [hph] at hcanon
  simpa using hcanon

theorem applyHeading_empty (hd : HeadingData) :
    applyHeading ChangeBlock.empty hd =
      { package := some hd.package, rawVersion := some hd.rawVersion,
        distributions := some hd.distributions,
        urgency := some (hd.urgency.getD "unknown".data),
        urgencyComment := hd.urgencyComment.getD [],
        changes := none, author := none, date := none, trailing := [],
        otherPairs := hd.otherPairs, noTrailer := false,
        trailerSep := [' ', ' '] } := by
  unfold applyHeading ChangeBlock.empty ChangeBlock.init
  cases hu : hd.urgency <;> cases hc : hd.urgencyComment <;>
    simp [hu, hc, Option.getD]

/-- The invariant tying the engine state to the text consumed so far: the
blank-line buffer is empty, each finalized block re-renders, and the text
equals the finalized blocks' rendering followed (in a change-body state)
by the in-progress block's heading and pending change lines. -/
def RInv (st : ParseState) (consumed : Str) : Prop :=
  st.initialBlankLines = [] ∧
  ((st.state = .firstHeading ∧ st.blocks = [] ∧
      st.currentBlock = ChangeBlock.empty ∧ st.changes = [] ∧ consumed = []) ∨
   (st.state = .nextHeadingOrEof ∧ st.blocks ≠ [] ∧
      st.currentBlock = ChangeBlock.empty ∧ st.changes = [] ∧
      renderBlocks st.blocks = .ok consumed) ∨
   ((st.state = .startOfChangeData ∨ st.state = .moreChangesOrTrailer) ∧
      ∃ dn pkg ver dist urg,
        renderBlocks st.blocks = .ok dn ∧
        st.currentBlock.package = some pkg ∧
        st.currentBlock.rawVersion = some ver ∧
        st.currentBlock.distributions = some dist ∧
        st.currentBlock.urgency = some urg ∧
        st.currentBlock.author = none ∧
        st.currentBlock.date = none ∧
        st.currentBlock.trailing = [] ∧
        st.currentBlock.noTrailer = false ∧
        st.currentBlock.trailerSep = [' ', ' '] ∧
        consumed = dn ++ renderHeading pkg ver dist urg
            st.currentBlock.urgencyComment st.currentBlock.otherPairs
          ++ '\n' :: renderLines st.changes) ∨
   (st.state = .slurpToEnd ∧ st.oldState = some PState.nextHeadingOrEof ∧
      st.blocks ≠ [] ∧ renderBlocks st.blocks = .ok consumed))

/-- A block whose tracked fields are those the engine maintains between a
heading and its trailer renders to its heading, change lines and trailer
line. -/
theorem render_tracked (b : ChangeBlock) (pkg ver dist urg : Str)
    (chs : List Str) (auth dt : Str)
    (hp : b.package = some pkg) (hv : b.rawVersion = some ver)
    (hdi : b.distributions = some dist) (hu : b.urgency = some urg)
    (htr : b.trailing = []) (hnt : b.noTrailer = false)
    (hsep : b.trailerSep = [' ', ' ']) :
    ChangeBlock.render { b with author := some auth, date := some dt,
                                changes := some chs } =
      .ok (renderHeading pkg ver dist urg b.urgencyComment b.otherPairs
           ++ '\n' :: renderLines chs
           ++ (" -- ".data ++ auth ++ [' ', ' '] ++ dt ++ ['\n'])) := by
  obtain ⟨bp, bv, bd, bu, buc, bch, bau, bda, btr, bop, bnt, bsep⟩ := b
  dsimp only at hp hv hdi hu htr hnt hsep ⊢
  subst hp hv hdi hu htr hnt hsep
  unfold ChangeBlock.render
  simp [renderLines, List.append_assoc]

/-- Applying a parsed canonical heading to the fresh block moves the
engine into the change-body shape of the invariant. -/
theorem rinv_applyHeading (st : ParseState) (dn : Str) (line : Str)
    (hd : HeadingData)
    (hph : processHeading true line = some (.ok hd))
    (hcanon : canonicalHeading line = true)
    (hcur : st.currentBlock = ChangeBlock.empty)
    (hch : st.changes = [])
    (hb0 : st.initialBlankLines = [])
    (hrb : renderBlocks st.blocks = .ok dn) :
    RInv { st with currentBlock := applyHeading st.currentBlock hd,
                   state := .startOfChangeData } (dn ++ (line ++ ['\n'])) := by
  have heq := canonicalHeading_ok line hd hph hcanon
  refine ⟨by simpa using hb0, Or.inr (Or.inr (Or.inl ⟨Or.inl rfl, dn,
    hd.package, hd.rawVersion, hd.distributions, hd.urgency.getD "unknown".data,
    ?_, ?_, ?_, ?_, ?_, ?_, ?_, ?_, ?_, ?_, ?_⟩))⟩
  · simpa using hrb
  · simp [hcur, applyHeading_empty]
  · simp [hcur, applyHeading_empty]
  · simp [hcur, applyHeading_empty]
  · simp [hcur, applyHeading_empty]
  · simp [hcur, applyHeading_empty]
  · simp [hcur, applyHeading_empty]
  · simp [hcur, applyHeading_empty]
  · simp [hcur, applyHeading_empty]
  · simp [hcur, applyHeading_empty]
  · rw [hcur, applyHeading_empty]
    dsimp only
    rw [hch, heq]
    simp [renderLines]

/-- Invariant preservation in `first_heading`: the only continuing branch
compatible with an empty blank-line buffer afterwards is a successful
heading match. -/
theorem rinv_step_first (cfg : Config) (hmb : cfg.maxBlocks = none)
    (hstrict : cfg.strict = true)
    (st : ParseState) (line : Str) (s2 : ParseState)
    (hst : st.state = .firstHeading) (hbl : st.blocks = [])
    (hcur : st.currentBlock = ChangeBlock.empty) (hch : st.changes = [])
    (hb0 : st.initialBlankLines = [])
    (hcanon : canonicalHeading line = true)
    (hstep : stepHeading cfg st line = .cont s2)
    (hblank : s2.initialBlankLines = []) :
    RInv s2 (line ++ ['\n']) := by
  simp only [stepHeading, hstrict, hmb] at hstep
  revert hstep
  cases hph : processHeading true line with
  | some res =>
      intro hstep
      dsimp only at hstep
      cases res with
      | error m => exact StepResult.noConfusion hstep
      | ok hd =>
          obtain rfl := (StepResult.cont.inj hstep).symm
          have h1 := rinv_applyHeading st [] line hd hph hcanon hcur hch hb0
            (by rw [hbl]; rfl)
          simpa using h1
  | none =>
      intro hstep
      rw [hst] at hstep
      simp at hstep
      repeat' split at hstep
      all_goals
        first
          | exact StepResult.noConfusion hstep
          | (simp_all
             done)
          | (cases hstep
             simp [hb0] at hblank)

/-- Invariant preservation in `next_heading_or_eof`: a heading match opens
the next block's change body; every other continuing branch appends the
line to the last finalized block's trailing lines (possibly switching to
the slurp state). -/
theorem rinv_step_next (cfg : Config) (hmb : cfg.maxBlocks = none)
    (hstrict : cfg.strict = true)
    (st : ParseState) (consumed line : Str) (s2 : ParseState)
    (hst : st.state = .nextHeadingOrEof) (hbl : st.blocks ≠ [])
    (hcur : st.currentBlock = ChangeBlock.empty) (hch : st.changes = [])
    (hb0 : st.initialBlankLines = [])
    (hrb : renderBlocks st.blocks = .ok consumed)
    (hcanon : canonicalHeading line = true)
    (hstep : stepHeading cfg st line = .cont s2)
    (hblank : s2.initialBlankLines = []) :
    RInv s2 (consumed ++ (line ++ ['\n'])) := by
  have hrb2 : renderBlocks (modifyLast (addTrailing line) st.blocks) =
      .ok (consumed ++ (line ++ ['\n'])) := by
    rw [renderBlocks_modifyLast st.blocks consumed line hbl hrb,
        List.append_assoc]
  simp only [stepHeading, hstrict, hmb] at hstep
  revert hstep
  cases hph : processHeading true line with
  | some res =>
      intro hstep
      dsimp only at hstep
      cases res with
      | error m => exact StepResult.noConfusion hstep
      | ok hd =>
          obtain rfl := (StepResult.cont.inj hstep).symm
          exact rinv_applyHeading st consumed line hd hph hcanon hcur hch
            hb0 hrb
  | none =>
      intro hstep
      rw [hst] at hstep
      simp at hstep
      repeat' split at hstep
      all_goals
        first
          | exact StepResult.noConfusion hstep
          | (simp_all
             done)
          | (cases hstep
             refine ⟨?_, Or.inr (Or.inl ⟨?_, ?_, ?_, ?_, ?_⟩)⟩
             · exact hb0
             · rfl
             · exact modifyLast_ne_nil _ _ hbl
             · exact hcur
             · exact hch
             · exact hrb2)
          | (cases hstep
             refine ⟨?_, Or.inr (Or.inr (Or.inr ⟨?_, ?_, ?_, ?_⟩))⟩
             · exact hb0
             · rfl
             · rfl
             · exact modifyLast_ne_nil _ _ hbl
             · exact hrb2)

/-- Invariant preservation in `slurp_to_end` after a trailer: every line
is appended to the last block's trailing lines. -/
theorem rinv_step_slurp (cfg : Config)
    (st : ParseState) (consumed line : Str) (s2 : ParseState)
    (hst : st.state = .slurpToEnd)
    (hold : st.oldState = some PState.nextHeadingOrEof)
    (hbl : st.blocks ≠ [])
    (hb0 : st.initialBlankLines = [])
    (hrb : renderBlocks st.blocks = .ok consumed)
    (hstep : step cfg st line = .cont s2) :
    RInv s2 (consumed ++ (line ++ ['\n'])) := by
  unfold step at hstep
  rw [hst] at hstep
  dsimp only at hstep
  rw [if_pos hold] at hstep
  obtain rfl := (StepResult.cont.inj hstep).symm
  refine ⟨by simpa using hb0, Or.inr (Or.inr (Or.inr ⟨rfl,
    by simpa using hold, modifyLast_ne_nil _ _ hbl, ?_⟩))⟩
  show renderBlocks (modifyLast (addTrailing line) st.blocks) = _
  rw [renderBlocks_modifyLast st.blocks consumed line hbl hrb,
      List.append_assoc]

/-- Invariant preservation in the change-body states: change, blank and
comment lines extend the pending changes, and a well-formed trailer line
finalizes the block, whose rendering reproduces exactly the heading, the
change lines and the trailer line. -/
theorem rinv_step_change (cfg : Config)
    (hstrict : cfg.strict = true) (haea : cfg.allowEmptyAuthor = false)
    (st : ParseState) (consumed line : Str) (s2 : ParseState)
    (hst : st.state = .startOfChangeData ∨ st.state = .moreChangesOrTrailer)
    (dn pkg ver dist urg : Str)
    (hrb : renderBlocks st.blocks = .ok dn)
    (hpkg : st.currentBlock.package = some pkg)
    (hver : st.currentBlock.rawVersion = some ver)
    (hdist : st.currentBlock.distributions = some dist)
    (hurg : st.currentBlock.urgency = some urg)
    (hau : st.currentBlock.author = none)
    (hda : st.currentBlock.date = none)
    (htr : st.currentBlock.trailing = [])
    (hnt : st.currentBlock.noTrailer = false)
    (hsep : st.currentBlock.trailerSep = [' ', ' '])
    (hcons : consumed = dn ++ renderHeading pkg ver dist urg
        st.currentBlock.urgencyComment st.currentBlock.otherPairs
      ++ '\n' :: renderLines st.changes)
    (hb0 : st.initialBlankLines = [])
    (hstep : stepChange cfg st line = .cont s2) :
    RInv s2 (consumed ++ (line ++ ['\n'])) := by
  subst hcons
  unfold stepChange at hstep
  rw [hstrict, haea] at hstep
  revert hstep
  by_cases hcb : changeB line = true
  · rw [if_pos hcb]
    intro hstep
    obtain rfl := (StepResult.cont.inj hstep).symm
    refine ⟨?_, Or.inr (Or.inr (Or.inl ⟨Or.inr rfl, dn, pkg, ver, dist, urg,
      ?_, ?_, ?_, ?_, ?_, ?_, ?_, ?_, ?_, ?_, ?_⟩))⟩
    · exact hb0
    · exact hrb
    · exact hpkg
    · exact hver
    · exact hdist
    · exact hurg
    · exact hau
    · exact hda
    · exact htr
    · exact hnt
    · exact hsep
    · simp [renderLines_append, renderLines, List.append_assoc]
  · rw [if_neg hcb]
    cases hel : endlineMatch line with
    | some g =>
        obtain ⟨g1, g2, g3, g4⟩ := g
        intro hstep
        dsimp only at hstep
        by_cases hg3 : g3 = [' ', ' ']
        · rw [if_neg (fun hcon => hcon hg3)] at hstep
          obtain rfl := (StepResult.cont.inj hstep).symm
          have hline := endlineMatch_sound line g1 g2 g3 g4 hel
          subst hg3
          have hbren := render_tracked st.currentBlock pkg ver dist urg
            st.changes (g1 ++ ' ' :: '<' :: (g2 ++ ['>'])) g4
            hpkg hver hdist hurg htr hnt hsep
          have hgoal := renderBlocks_append_one st.blocks dn
            { st.currentBlock with
                author := some (g1 ++ ' ' :: '<' :: (g2 ++ ['>'])),
                date := some g4, changes := some st.changes } _ hrb hbren
          refine ⟨?_, Or.inr (Or.inl ⟨?_, ?_, ?_, ?_, ?_⟩)⟩
          · exact hb0
          · rfl
          · simp [finalizeBlock]
          · rfl
          · rfl
          · refine hgoal.trans ?_
            congr 1
            rw [hline]
            have hsp : (" <".data : Str) = [' ', '<'] := rfl
            rw [hsp]
            simp [List.append_assoc, List.cons_append]
        · rw [if_pos hg3] at hstep
          rw [if_pos rfl] at hstep
          exact StepResult.noConfusion hstep
    | none =>
        intro hstep
        dsimp only at hstep
        repeat' split at hstep
        all_goals
          first
            | exact StepResult.noConfusion hstep
            | (simp_all
               done)
            | (cases hstep
               refine ⟨?_, Or.inr (Or.inr (Or.inl ⟨?_, dn, pkg, ver, dist,
                 urg, ?_, ?_, ?_, ?_, ?_, ?_, ?_, ?_, ?_, ?_, ?_⟩))⟩
               · exact hb0
               · exact hst
               · exact hrb
               · exact hpkg
               · exact hver
               · exact hdist
               · exact hurg
               · exact hau
               · exact hda
               · exact htr
               · exact hnt
               · exact hsep
               · simp [renderLines_append, renderLines, List.append_assoc])

/-- The invariant is preserved by every continuing step of a strict
parse over canonical lines, provided the blank-line buffer stays empty. -/
theorem rinv_step (cfg : Config) (hmb : cfg.maxBlocks = none)
    (hstrict : cfg.strict = true) (haea : cfg.allowEmptyAuthor = false)
    (st : ParseState) (consumed line : Str) (s2 : ParseState)
    (hinv : RInv st consumed) (hcanon : canonicalHeading line = true)
    (hstep : step cfg st line = .cont s2)
    (hblank : s2.initialBlankLines = []) :
    RInv s2 (consumed ++ (line ++ ['\n'])) := by
  obtain ⟨hb0, hcase⟩ := hinv
  rcases hcase with ⟨hst, hbl, hcur, hch, hcons⟩ | ⟨hst, hbl, hcur, hch, hrb⟩ |
    ⟨hst, dn, pkg, ver, dist, urg, hrb, hpkg, hver, hdist, hurg, hau, hda,
      htr, hnt, hsep, hcons⟩ | ⟨hst, hold, hbl, hrb⟩
  · have hsh : stepHeading cfg st line = .cont s2 := by
      unfold step at hstep
      rw [hst] at hstep
      exact hstep
    subst hcons
    have h1 := rinv_step_first cfg hmb hstrict st line s2 hst hbl hcur hch
      hb0 hcanon hsh hblank
    simpa using h1
  · have hsh : stepHeading cfg st line = .cont s2 := by
      unfold step at hstep
      rw [hst] at hstep
      exact hstep
    exact rinv_step_next cfg hmb hstrict st consumed line s2 hst hbl hcur
      hch hb0 hrb hcanon hsh hblank
  · have hsc : stepChange cfg st line = .cont s2 := by
      unfold step at hstep
      rcases hst with hst | hst <;> rw [hst] at hstep <;> exact hstep
    exact rinv_step_change cfg hstrict haea st consumed line s2 hst dn pkg
      ver dist urg hrb hpkg hver hdist hurg hau hda htr hnt hsep hcons
      hb0 hsc
  · exact rinv_step_slurp cfg st consumed line s2 hst hold hbl hb0 hrb hstep

/-- Running the strict engine over canonical lines from an invariant
state lands in an invariant state, with the consumed text extended by
the lines just processed (each with its newline restored). -/
theorem rinv_run (cfg : Config) (hmb : cfg.maxBlocks = none)
    (hstrict : cfg.strict = true) (haea : cfg.allowEmptyAuthor = false)
    (lines : List Str) :
    ∀ st consumed sf, RInv st consumed →
      (∀ l ∈ lines, canonicalHeading l = true) →
      runLines cfg st lines = .ok sf →
      sf.initialBlankLines = [] →
      RInv sf (consumed ++ renderLines lines) := by
  induction lines with
  | nil =>
      intro st consumed sf hinv _ hrun _
      cases hrun
      simpa [renderLines] using hinv
  | cons l rest ih =>
      intro st consumed sf hinv hcanon hrun hbf
      rw [runLines_cons] at hrun
      revert hrun
      cases hstep : step cfg st l with
      | cont s2 =>
          intro hrun
          have hb2 : s2.initialBlankLines = [] := by
            obtain ⟨t, ht⟩ := blanksExtend_run cfg rest s2 sf hrun
            rw [hbf] at ht
            exact (List.append_eq_nil.mp ht.symm).1
          have hinv2 := rinv_step cfg hmb hstrict haea st consumed l s2 hinv
            (hcanon l (by simp)) hstep hb2
          have hfin := ih s2 (consumed ++ (l ++ ['\n'])) sf hinv2
            (fun x hx => hcanon x (by simp [hx])) hrun hbf
          have hxy : (consumed ++ (l ++ ['\n'])) ++ renderLines rest =
              consumed ++ renderLines (l :: rest) := by
            simp [renderLines, List.append_assoc]
          rw [← hxy]
          exact hfin
      | stop s2 => intro hrun; exact RunResult.noConfusion hrun
      | err m s2 => intro hrun; exact RunResult.noConfusion hrun

/-- **C1 (amended).** Parsing a changelog and serialising the resulting
document reproduces the input byte-for-byte, provided the input parses
in strict mode, ends with a newline, puts no line before its first
heading, writes each heading line canonically (as re-rendering would
print it), and carries at most one `key=value` pair besides `urgency`
on each heading. The three counterexample inputs show the first three
provisos are needed: a leading blank line, a missing final newline, and
a `;urgency` heading without the canonical space each break the
byte-for-byte round trip. The pair bound marks where the embedding is
faithful: the program re-renders `other_pairs` in the iteration order
of a CPython 2 dict (hash-slot order, e.g. `closes` before `bugs`
whatever the input order), so with two or more extra pairs the program
itself generally breaks the round trip even on a model-canonical
heading. -/
theorem roundtrip_amended (file : Str) (d : ChangelogDoc)
    (hparse : parse_changelog strictCfg file = .ok d)
    (hnl : file.getLast? = some '\n')
    (hblanks : d.initialBlankLines = [])
    (hcanon : ∀ l ∈ toLines file, canonicalHeading l = true)
    (hpairs : ∀ l ∈ toLines file, fewPairs l = true) :
    d.render = .ok file := by
  obtain ⟨ps, hrun, hinc, hdoc, hne⟩ := parse_ok_inv file d hparse
  have hpb : ps.initialBlankLines = [] := by
    rw [hdoc] at hblanks
    exact hblanks
  have hinv0 : RInv initParseState [] :=
    ⟨rfl, Or.inl ⟨rfl, rfl, rfl, rfl, rfl⟩⟩
  have hinv := rinv_run strictCfg rfl rfl rfl (toLines file) initParseState
    [] ps hinv0 hcanon hrun hpb
  rw [List.nil_append, renderLines_toLines file hnl] at hinv
  subst hdoc
  obtain ⟨_, hcase⟩ := hinv
  rcases hcase with ⟨hst, _⟩ | ⟨hst, _, _, _, hrb⟩ |
    ⟨hst, _, _, _, _, _, _, _, _, _, _, _, _, _, _, _, _⟩ | ⟨hst, hold, _, hrb⟩
  · unfold eofIncomplete at hinc
    rw [hst] at hinc
    simp at hinc
  · show ChangelogDoc.render (docOf ps) = .ok file
    unfold ChangelogDoc.render docOf
    dsimp only
    rw [hrb, hpb]
    simp [joinNl]
  · unfold eofIncomplete at hinc
    rcases hst with hst | hst <;> rw [hst] at hinc <;> simp at hinc
  · show ChangelogDoc.render (docOf ps) = .ok file
    unfold ChangelogDoc.render docOf
    dsimp only
    rw [hrb, hpb]
    simp [joinNl]

def c1okfile : Str :=
  ("p1 (1.0-1) unstable; urgency=low, closes=123456\n\n  * a\n\n" ++
   " -- A <a@b>  Sat, 15 Jul 2006 11:11:08 +0200\n").data

def c1okdoc : ChangelogDoc := docOf (stateOfRun (parseRun strictCfg c1okfile))

/-- Witness for `roundtrip_amended`: a concrete one-block changelog
(with one extra `closes` pair, the most the pair bound allows) that
satisfies all five provisos, and whose parsed document re-renders to
the exact input text. -/
theorem roundtrip_amended_witness :
    parse_changelog strictCfg c1okfile = .ok c1okdoc ∧
    c1okfile.getLast? = some '\n' ∧
    c1okdoc.initialBlankLines = [] ∧
    (∀ l ∈ toLines c1okfile, canonicalHeading l = true) ∧
    (∀ l ∈ toLines c1okfile, fewPairs l = true) ∧
    c1okdoc.render = .ok c1okfile :=
  ⟨rfl, rfl, rfl, by decide, by decide,
   roundtrip_amended c1okfile c1okdoc rfl rfl rfl (by decide) (by decide)⟩

end Changelog
